import Mathlib

/-!
Verification of the `pbr` spectral path tracer against its specification.

Floating-point arithmetic (`f64`) is modelled by the real numbers; machine
infinity, where it only serves as an "unbounded" marker (`max_t`,
`LightSample::dist`), is modelled by `Option ℝ` with `none` standing for `+∞`.
Rust panics are modelled by `Option`/`Except` results with `none`/`.error`
standing for the panic.
-/

namespace Pbr

noncomputable section

open Real

/-- Model of `glam::DVec3`: a vector of three `f64` components. -/
structure Vec3 where
  x : ℝ
  y : ℝ
  z : ℝ

/-- Model of `glam::DVec4`: a vector of four `f64` components. -/
structure Vec4 where
  x : ℝ
  y : ℝ
  z : ℝ
  w : ℝ

namespace Vec3

def zero : Vec3 := ⟨0, 0, 0⟩

def add (a b : Vec3) : Vec3 := ⟨a.x + b.x, a.y + b.y, a.z + b.z⟩

def sub (a b : Vec3) : Vec3 := ⟨a.x - b.x, a.y - b.y, a.z - b.z⟩

/-- Componentwise product (`DVec3 * DVec3`). -/
def mul (a b : Vec3) : Vec3 := ⟨a.x * b.x, a.y * b.y, a.z * b.z⟩

/-- Scalar multiple (`f64 * DVec3`). -/
def smul (s : ℝ) (a : Vec3) : Vec3 := ⟨s * a.x, s * a.y, s * a.z⟩

/-- Componentwise quotient (`DVec3 / DVec3`). -/
def div (a b : Vec3) : Vec3 := ⟨a.x / b.x, a.y / b.y, a.z / b.z⟩

/-- Division by a scalar (`DVec3 / f64`). -/
def divs (a : Vec3) (s : ℝ) : Vec3 := ⟨a.x / s, a.y / s, a.z / s⟩

def dot (a b : Vec3) : ℝ := a.x * b.x + a.y * b.y + a.z * b.z

def length (a : Vec3) : ℝ := Real.sqrt (a.dot a)

def normalize (a : Vec3) : Vec3 := a.divs a.length

/-- Model of `DVec3::min` (componentwise minimum). -/
def cmin (a b : Vec3) : Vec3 := ⟨min a.x b.x, min a.y b.y, min a.z b.z⟩

/-- Model of `DVec3::max` (componentwise maximum). -/
def cmax (a b : Vec3) : Vec3 := ⟨max a.x b.x, max a.y b.y, max a.z b.z⟩

def min_element (a : Vec3) : ℝ := min (min a.x a.y) a.z

def max_element (a : Vec3) : ℝ := max (max a.x a.y) a.z

/-- Model of `DVec3::reflect(self, normal) = self - 2 * self.dot(normal) * normal`. -/
def reflect (v n : Vec3) : Vec3 := v.sub (smul (2 * v.dot n) n)

/-- Model of `glam`'s `DVec3::refract(self, normal, eta)`:
`k = 1 - eta^2 * (1 - (n.i)^2)`; total internal reflection returns zero. -/
def refract (v n : Vec3) (eta : ℝ) : Vec3 :=
  let nDotI := n.dot v
  let k := 1 - eta * eta * (1 - nDotI * nDotI)
  if k ≥ 0 then (smul eta v).sub (smul (eta * nDotI + Real.sqrt k) n)
  else zero

/-- Model of Rust `f64::signum`: `1.0` for non-negative reals (`+0.0`
included), `-1.0` for negative ones.  `ℝ` has no negative zero. -/
def rsignum (x : ℝ) : ℝ := if x ≥ 0 then 1 else -1

end Vec3

namespace Vec4

def zero : Vec4 := ⟨0, 0, 0, 0⟩

def one : Vec4 := ⟨1, 1, 1, 1⟩

def splat (s : ℝ) : Vec4 := ⟨s, s, s, s⟩

def add (a b : Vec4) : Vec4 := ⟨a.x + b.x, a.y + b.y, a.z + b.z, a.w + b.w⟩

def sub (a b : Vec4) : Vec4 := ⟨a.x - b.x, a.y - b.y, a.z - b.z, a.w - b.w⟩

/-- Componentwise product (`DVec4 * DVec4`). -/
def mul (a b : Vec4) : Vec4 := ⟨a.x * b.x, a.y * b.y, a.z * b.z, a.w * b.w⟩

/-- Scalar multiple (`DVec4 * f64`). -/
def smul (s : ℝ) (a : Vec4) : Vec4 := ⟨s * a.x, s * a.y, s * a.z, s * a.w⟩

/-- Division by a scalar (`DVec4 / f64`). -/
def divs (a : Vec4) (s : ℝ) : Vec4 := ⟨a.x / s, a.y / s, a.z / s, a.w / s⟩

/-- Componentwise quotient (`DVec4 / DVec4`). -/
def div (a b : Vec4) : Vec4 := ⟨a.x / b.x, a.y / b.y, a.z / b.z, a.w / b.w⟩

/-- Subtraction of a vector from a scalar (`f64 - DVec4`). -/
def rsub (s : ℝ) (a : Vec4) : Vec4 := ⟨s - a.x, s - a.y, s - a.z, s - a.w⟩

def element_sum (a : Vec4) : ℝ := a.x + a.y + a.z + a.w

def max_element (a : Vec4) : ℝ := max (max (max a.x a.y) a.z) a.w

/-- Model of `DVec4::map` (componentwise application). -/
def map (f : ℝ → ℝ) (a : Vec4) : Vec4 := ⟨f a.x, f a.y, f a.z, f a.w⟩

/-- Model of `lambdas.xxxx()` (broadcast the first component). -/
def xxxx (a : Vec4) : Vec4 := ⟨a.x, a.x, a.x, a.x⟩

end Vec4

/-! ## Spectra (src/spectrum.rs) -/

/-- Shallow embedding of the `Spectrum` trait: its `sample` method. -/
structure Spectrum where
  sample : ℝ → ℝ

/-- Default `sample_multi`: componentwise `sample` (spectrum.rs lines 17-19). -/
def Spectrum.sample_multi (s : Spectrum) (lambdas : Vec4) : Vec4 :=
  lambdas.map s.sample

/-- Embedding of `ConstantSpectrum` (spectrum.rs lines 33-40). -/
def ConstantSpectrum (c : ℝ) : Spectrum := ⟨fun _ => c⟩

/-- Embedding of `AmplifiedSpectrum` (spectrum.rs lines 121-130):
`sample(λ) = s.sample(λ) * factor`. -/
def AmplifiedSpectrum (factor : ℝ) (s : Spectrum) : Spectrum :=
  ⟨fun l => s.sample l * factor⟩

/-! ## Media (src/medium.rs) -/

/-- Spectral coefficients of a medium at a point
({emission, absorption, scattering}, spec section 4.4). -/
structure MediumProperties where
  emission : Vec4
  absorption : Vec4
  scattering : Vec4

/-- Shallow embedding of the `Medium` trait (src/medium.rs lines 7-41) as a
record of the methods the claims need.  In this snapshot of medium.rs the
`majorant` method returns a scalar `f64` (path_trace.rs applies
`.max_element()` to the result of a vector-returning variant of the same
trait; over this trait version that call is the identity). -/
structure Medium where
  majorant : Vec4 → ℝ
  absorption : Vec3 → Vec3 → Vec4 → Vec4
  emission : Vec3 → Vec3 → Vec4 → Vec4
  scattering : Vec3 → Vec3 → Vec4 → Vec4
  participating : Bool

/-- Modelled from the spec: the `properties(pos, outgoing, λ₀..₃) →
{emission, absorption, scattering}` accessor of the `Medium` trait (spec
section 4.4).  It is called at src/path_trace.rs line 55 but this snapshot's
src/medium.rs does not define it; per the spec it reads the three
coefficient methods at the given position. -/
def Medium.properties (m : Medium) (pos outgoing : Vec3) (lambdas : Vec4) :
    MediumProperties where
  emission := m.emission pos outgoing lambdas
  absorption := m.absorption pos outgoing lambdas
  scattering := m.scattering pos outgoing lambdas

/-- Embedding of `TestMedium` (src/medium.rs lines 132-164): constant spectra
scaled by `1 - |pos|`; the majorant is the largest component of
absorption + scattering as sampled (unscaled). -/
def TestMedium (absorption emission scattering : Spectrum) : Medium where
  majorant := fun lambdas =>
    ((absorption.sample_multi lambdas).add (scattering.sample_multi lambdas)).max_element
  absorption := fun pos _ lambdas =>
    Vec4.smul (1 - pos.length) (absorption.sample_multi lambdas)
  emission := fun _ _ lambdas => emission.sample_multi lambdas
  scattering := fun pos _ lambdas =>
    Vec4.smul (1 - pos.length) (scattering.sample_multi lambdas)
  participating := true

/-- Parameters of `AtmosphereMie` (src/medium.rs lines 211-218). -/
structure AtmosphereMie where
  origin : Vec3
  sea_level : ℝ
  sea_level_density : ℝ
  height_scale : ℝ
  g : ℝ

/-- Embedding of `AtmosphereMie::scattering` (src/medium.rs lines 236-240):
`splat(sea_level_density * exp(-altitude / height_scale))`. -/
def AtmosphereMie.scattering (m : AtmosphereMie) (pos : Vec3) : Vec4 :=
  let altitude := (pos.sub m.origin).length - m.sea_level
  Vec4.splat (m.sea_level_density * Real.exp (-altitude / m.height_scale))

/-- Embedding of the `Medium` implementation of `AtmosphereMie`
(src/medium.rs lines 220-240): `majorant = sea_level_density`,
`absorption = scattering * 0.1`. -/
def AtmosphereMie.toMedium (m : AtmosphereMie) : Medium where
  majorant := fun _ => m.sea_level_density
  absorption := fun pos _ _ => Vec4.smul 0.1 (m.scattering pos)
  emission := fun _ _ _ => Vec4.zero
  scattering := fun pos _ _ => m.scattering pos
  participating := true

/-! ## Path-integrator fragments (src/path_trace.rs) -/

/-- Model of `RayHit` (src/objects.rs lines 8-13); the material reference is
modelled as a numeric tag. -/
structure RayHit where
  t : ℝ
  normal : Vec3
  geo_normal : Vec3
  material : ℕ

/-- Data computed at a sampled collision of the delta-tracking loop of
`path_trace` (src/path_trace.rs lines 54-58): the collision point `p` and
the three interaction probabilities. -/
structure CollisionProbs where
  p : Vec3
  pr_absorption : Vec4
  pr_scattering : Vec4
  pr_null : Vec4

/-- Embedding of src/path_trace.rs lines 54-58: at free-flight distance `t`
the code computes `p = pos + t * dir` but evaluates the medium coefficients
by `medium.properties(pos, dir, lambdas)` — at the segment origin `pos`. -/
def deltaTrackingCollision (medium : Medium) (pos dir : Vec3) (lambdas : Vec4)
    (majorant t : ℝ) : CollisionProbs :=
  let p := pos.add (Vec3.smul t dir)
  let mp := medium.properties pos dir lambdas
  let pr_absorption := mp.absorption.divs majorant
  let pr_scattering := mp.scattering.divs majorant
  let pr_null := (Vec4.rsub 1 pr_absorption).sub pr_scattering
  ⟨p, pr_absorption, pr_scattering, pr_null⟩

/-- Embedding of the Russian-roulette block of `path_trace`
(src/path_trace.rs lines 183-194), including the trailing `bounces += 1`.
The `thread_rng().gen_bool(0.5)` draw is passed in as `stop`; `none` models
`break`. -/
def russianRoulette (throughput : Vec4) (bounces : ℕ) (stop : Bool) :
    Option (Vec4 × ℕ) :=
  if throughput.element_sum < 0.5 ∨ bounces > 20 then
    let bounces' := if bounces > 20 then 0 else bounces
    if stop then none
    else some (Vec4.smul 2 throughput, bounces' + 1)
  else some (throughput, bounces + 1)

/-- Embedding of the Russian-roulette entry condition of the older integrator
in src/main.rs line 420: `throughput.max_element() < 0.5 || bounces > 20`. -/
def mainRrEntered (throughput : Vec4) (bounces : ℕ) : Prop :=
  throughput.max_element < 0.5 ∨ bounces > 20

/-- Embedding of the medium-entry adjustment of `path_trace`
(src/path_trace.rs lines 33-39): once the current medium participates, if
`secondary_terminated` is not yet set, component 0 of the throughput is
scaled by 4 and components 1..3 are zeroed, and the flag is set. -/
def participatingEntry (throughput : Vec4) (secondary_terminated : Bool) :
    Vec4 × Bool :=
  if secondary_terminated then (throughput, secondary_terminated)
  else (⟨4 * throughput.x, 0, 0, 0⟩, true)

/-- At most the hero (index 0) component is nonzero. -/
def heroOnly (v : Vec4) : Prop := v.y = 0 ∧ v.z = 0 ∧ v.w = 0

/-- Embedding of the iteration prologue of `path_trace`
(src/path_trace.rs lines 26-32).  The scene is abstracted to its `raycast`
method (called with `max_t = ∞`); `Except.error ()` models the
`panic!("can't exit participating medium?")`. -/
def pathTracePrologue (raycast : Vec3 → Vec3 → Option RayHit)
    (pos dir : Vec3) (medium : Medium) : Except Unit (Option RayHit) :=
  match raycast pos dir with
  | none => if medium.participating then .error () else .ok none
  | some h => .ok (some h)

/-- Embedding of the loop-head raycast of `transmittance`
(src/path_trace.rs lines 210-216): while `d > 0`, a miss inside a
participating medium panics (`Except.error ()`), a miss in vacuum breaks the
loop (`.ok none`), and a hit continues with it. -/
def transmittanceCheck (raycast : Vec3 → Vec3 → ℝ → Option RayHit)
    (pos dir : Vec3) (d : ℝ) (medium : Medium) : Except Unit (Option RayHit) :=
  if d > 0 then
    match raycast pos dir d with
    | none => if medium.participating then .error () else .ok none
    | some h => .ok (some h)
  else .ok none

/-! ## Piecewise-linear spectra (src/spectrum.rs lines 42-93) -/

/-- Model of Rust `f64::lerp` (`glam::FloatExt`):
`self + (rhs - self) * s`. -/
def flerp (a b s : ℝ) : ℝ := a + (b - a) * s

/-- Number of table entries with wavelength ≤ λ.  For a table sorted by
wavelength this is the partition point that
`binary_search_by(|&(l, _)| if l <= lambda then Less else Greater)`
returns in its `Err` (src/spectrum.rs lines 79-85). -/
def countLE (data : List (ℝ × ℝ)) (lambda : ℝ) : ℕ :=
  match data with
  | [] => 0
  | e :: rest =>
      if e.1 ≤ lambda then countLE rest lambda + 1 else countLE rest lambda

/-- Embedding of `PiecewiseLinearSpectrum::sample` (src/spectrum.rs lines
77-93).  The code indexes `data[i-1]` and `data[i]` at the partition point
`i`; when λ is below the first entry (`i = 0`, so `i - 1` underflows the
`usize`) or not below the last entry (`i = len`), the access is out of
bounds and the code panics, modelled by `none`. -/
def PiecewiseLinearSpectrum.sample (data : List (ℝ × ℝ)) (lambda : ℝ) :
    Option ℝ :=
  let i := countLE data lambda
  if i = 0 then none
  else
    match data[i - 1]?, data[i]? with
    | some lo, some hi =>
        some (flerp lo.2 hi.2 ((lambda - lo.1) / (hi.1 - lo.1)))
    | _, _ => none

/-! ## Dielectric BRDF (src/brdf/dielectric.rs) -/

/-- Negation of a vector (`-DVec3`). -/
def Vec3.neg (a : Vec3) : Vec3 := ⟨-a.x, -a.y, -a.z⟩

/-- Division of a scalar by a vector, componentwise (`f64 / DVec4`). -/
def Vec4.rdiv (s : ℝ) (a : Vec4) : Vec4 := ⟨s / a.x, s / a.y, s / a.z, s / a.w⟩

/-- Model of `BrdfSample` (src/brdf.rs). -/
structure BrdfSample where
  dir : Vec3
  pdf : ℝ
  f : Vec4
  terminate_secondary : Bool
  singular : Bool

/-- Embedding of `fresnel_reflectance_real` (src/brdf/dielectric.rs lines
125-137): real Fresnel reflectance, returning 1 on total internal
reflection (`sin²θ_t ≥ 1`). -/
def fresnel_reflectance_real (cos_i rel_ior : ℝ) : ℝ :=
  let sin2_i := 1 - cos_i * cos_i
  let sin2_t := sin2_i / (rel_ior * rel_ior)
  if sin2_t ≥ 1 then 1
  else
    let cos_t := Real.sqrt (1 - sin2_t)
    let r_par := (rel_ior * cos_i - cos_t) / (rel_ior * cos_i + cos_t)
    let r_perp := (cos_i - rel_ior * cos_t) / (cos_i + rel_ior * cos_t)
    (r_par * r_par + r_perp * r_perp) / 2

/-- Embedding of `DielectricBrdf` (src/brdf/dielectric.rs lines 7-10). -/
structure DielectricBrdf where
  ior : Spectrum

/-- The relative-IOR / normal adjustment at the head of
`DielectricBrdf::sample` (src/brdf/dielectric.rs lines 23-27): when the
outgoing direction is on the outside (`outgoing·normal < 0`) keep
`(ior, normal)`, otherwise use `(1/ior, -normal)`. -/
def DielectricBrdf.adjusted (brdf : DielectricBrdf) (outgoing normal : Vec3)
    (lambdas : Vec4) : Vec4 × Vec3 :=
  let ior := brdf.ior.sample_multi lambdas
  if outgoing.dot normal < 0 then (ior, normal)
  else (Vec4.rdiv 1 ior, normal.neg)

/-- Embedding of `DielectricBrdf::sample` (src/brdf/dielectric.rs lines
21-52): Russian roulette between reflection and refraction against the
Fresnel reflectance at the hero wavelength. -/
def DielectricBrdf.sample (brdf : DielectricBrdf) (outgoing normal : Vec3)
    (lambdas : Vec4) (random : Vec3) : BrdfSample :=
  let pr := brdf.adjusted outgoing normal lambdas
  let ior := pr.1
  let n := pr.2
  let reflected := outgoing.reflect n
  let cos_i := reflected.dot n
  let fresnel_reflect := ior.map (fun i => fresnel_reflectance_real cos_i i)
  if random.z < fresnel_reflect.x then
    { dir := reflected
      pdf := fresnel_reflect.x
      f := fresnel_reflect.divs cos_i
      terminate_secondary := false
      singular := true }
  else
    let refracted := outgoing.refract n (1 / ior.x)
    { dir := refracted
      pdf := 1 - fresnel_reflect.x
      f := Vec4.splat ((1 - fresnel_reflect.x) / |refracted.dot n| /
        (ior.x * ior.x))
      terminate_secondary := true
      singular := true }

/-! ## Distant disk light (src/light.rs) -/

/-- Model of `glam::DVec3::any_orthonormal_pair` (the branchless Pixar
orthonormal-basis construction; modelled from the glam library source, an
external dependency of the repository): `sign = signum(z)`,
`a = -1/(sign + z)`, `b = x*y*a`, and the pair is
`((1 + sign*x²*a, sign*b, -sign*x), (b, sign + y²*a, -y))`. -/
def Vec3.any_orthonormal_pair (v : Vec3) : Vec3 × Vec3 :=
  let sign := Vec3.rsignum v.z
  let a := -1 / (sign + v.z)
  let b := v.x * v.y * a
  (⟨1 + sign * v.x * v.x * a, sign * b, -sign * v.x⟩,
   ⟨b, sign + v.y * v.y * a, -v.y⟩)

/-- Model of `LightSample` (src/light.rs lines 7-12); `dist : Option ℝ` with
`none` standing for `f64::INFINITY`. -/
structure LightSample where
  dir : Vec3
  dist : Option ℝ
  pdf : ℝ
  emission : Vec4

/-- Embedding of `DistantDiskLight` (src/light.rs lines 22-26). -/
structure DistantDiskLight where
  emission : Spectrum
  dir : Vec3
  cos_radius : ℝ

/-- Embedding of `DistantDiskLight::pdf` (src/light.rs lines 73-81). -/
def DistantDiskLight.pdf (l : DistantDiskLight) (pos dir : Vec3)
    (lambdas : Vec4) : ℝ :=
  if dir.dot l.dir ≥ l.cos_radius then 1 / ((1 - l.cos_radius) * 2 * π)
  else 0

/-- Embedding of the `Light::emission` method of `DistantDiskLight`
(src/light.rs lines 48-55); `max_t : Option ℝ` with `none` standing for
`f64::INFINITY`, so the `max_t == f64::INFINITY` test is `max_t = none`. -/
def DistantDiskLight.light_emission (l : DistantDiskLight) (pos dir : Vec3)
    (lambdas : Vec4) (max_t : Option ℝ) : Vec4 :=
  if max_t = none ∧ dir.dot l.dir ≥ l.cos_radius then
    l.emission.sample_multi lambdas
  else Vec4.zero

/-- Embedding of `DistantDiskLight::sample` (src/light.rs lines 57-71):
`z = cos_radius.lerp(1, u.x)`, `(x, y) = (u.y * 2π).sin_cos()`,
`r = sqrt(1 - z²)`, direction `x·r·tangent + y·r·bitangent + z·dir`,
distance ∞. -/
def DistantDiskLight.sample (l : DistantDiskLight) (pos : Vec3)
    (lambdas : Vec4) (random : Vec3) : LightSample :=
  let z := flerp l.cos_radius 1 random.x
  let x := Real.sin (random.y * π * 2)
  let y := Real.cos (random.y * π * 2)
  let r := Real.sqrt (1 - z * z)
  let tb := l.dir.any_orthonormal_pair
  let dir := ((Vec3.smul (x * r) tb.1).add (Vec3.smul (y * r) tb.2)).add
    (Vec3.smul z l.dir)
  { dir := dir
    dist := none
    pdf := l.pdf pos dir lambdas
    emission := l.light_emission pos dir lambdas none }

/-! ## Primitives, bounds and BVH (src/objects.rs, src/bvh.rs, src/scene.rs,
src/main.rs lines 437-471) -/

/-- Subtraction of a scalar from each component (`DVec3 - f64`). -/
def Vec3.subs (a : Vec3) (s : ℝ) : Vec3 := ⟨a.x - s, a.y - s, a.z - s⟩

/-- Addition of a scalar to each component (`DVec3 + f64`). -/
def Vec3.adds (a : Vec3) (s : ℝ) : Vec3 := ⟨a.x + s, a.y + s, a.z + s⟩

/-- Componentwise quotient (`DVec3 / DVec3`). -/
def Vec3.divv (a b : Vec3) : Vec3 := ⟨a.x / b.x, a.y / b.y, a.z / b.z⟩

/-- Componentwise absolute value (`DVec3::abs`). -/
def Vec3.vabs (a : Vec3) : Vec3 := ⟨|a.x|, |a.y|, |a.z|⟩

/-- Cross product (`DVec3::cross`). -/
def Vec3.cross (a b : Vec3) : Vec3 :=
  ⟨a.y * b.z - a.z * b.y, a.z * b.x - a.x * b.z, a.x * b.y - a.y * b.x⟩

/-- Indexing a vector by axis (`DVec3` `Index<usize>`: 0 → x, 1 → y,
2 → z). -/
def Vec3.comp (v : Vec3) (i : ℕ) : ℝ :=
  if i = 0 then v.x else if i = 1 then v.y else v.z

/-- Model of `DVec2::perp_dot` (`self.x * rhs.y - self.y * rhs.x`). -/
def perp_dot (a b : ℝ × ℝ) : ℝ := a.1 * b.2 - a.2 * b.1

/-- Model of `Bounds` (src/main.rs lines 437-441). -/
structure Bounds where
  min : Vec3
  max : Vec3

/-- Embedding of `Bounds::point` (src/main.rs lines 444-449). -/
def Bounds.point (p : Vec3) : Bounds := ⟨p.subs 1.0e-9, p.adds 1.0e-9⟩

/-- Embedding of `Bounds::union` (src/main.rs lines 465-470). -/
def Bounds.union (a b : Bounds) : Bounds :=
  ⟨a.min.cmin b.min, a.max.cmax b.max⟩

/-- Embedding of `Bounds::centroid` (src/main.rs lines 461-463). -/
def Bounds.centroid (b : Bounds) : Vec3 :=
  Vec3.divs (b.min.add b.max) 2

/-- Embedding of `Bounds::ray_intersect` (src/main.rs lines 451-459).
`t_max : Option ℝ` with `none` standing for `f64::INFINITY` (under which
`min(t_far, ∞) = t_far`).  Real division stands in for IEEE division; at
every concrete input used below the two agree on whether the test
succeeds. -/
def Bounds.ray_intersect (b : Bounds) (origin dir : Vec3) (t_max : Option ℝ) :
    Option (ℝ × ℝ) :=
  let t_l := (b.min.sub origin).divv dir
  let t_u := (b.max.sub origin).divv dir
  let t_near := t_l.cmin t_u
  let t_far := t_l.cmax t_u
  let t_0 := Max.max t_near.max_element 0
  let t_1 := match t_max with
    | none => t_far.min_element
    | some m => Min.min t_far.min_element m
  if t_0 ≤ t_1 then some (t_0, t_1) else none

/-- The primitive objects of a scene (src/objects.rs): spheres and
triangles; the material reference is a numeric tag. -/
inductive Prim where
  | sphere (origin : Vec3) (radius : ℝ) (material : ℕ)
  | tri (a b c a_n b_n c_n : Vec3) (material : ℕ)

/-- Embedding of `Object::bounds` for spheres and triangles
(src/objects.rs lines 69-74 and 161-166). -/
def Prim.bounds : Prim → Bounds
  | .sphere o r _ => ⟨o.subs r, o.adds r⟩
  | .tri a b c _ _ _ _ => ⟨(a.cmin b).cmin c, (a.cmax b).cmax c⟩

/-- Embedding of `Sphere::raycast` (src/objects.rs lines 30-67). -/
def sphereRaycast (so : Vec3) (radius : ℝ) (material : ℕ)
    (origin dir : Vec3) : Option RayHit :=
  let o := origin.sub so
  let b := 2 * o.dot dir
  let c := o.dot o - radius * radius
  let det := b * b - 4 * 1 * c
  if det < 0 then none
  else
    let sq := Real.sqrt det
    let t0 := (-b - sq) / 2
    let t1 := (-b + sq) / 2
    if t1 < 0 then none
    else
      let t := if t0 > 0 then t0 else t1
      let normal := (o.add (Vec3.smul t dir)).normalize
      some ⟨t, normal, normal, material⟩

/-- Embedding of `Triangle::raycast` (src/objects.rs lines 91-159), given
the axis permutation `(i_x, i_y, i_z)` already selected. -/
def triRaycastPerm (A B C An Bn Cn : Vec3) (material : ℕ)
    (origin dir : Vec3) (ix iy iz : ℕ) : Option RayHit :=
  let n := (C.sub B).cross (A.sub B)
  if n.dot n = 0 then none
  else
    let a0 := A.sub origin
    let b0 := B.sub origin
    let c0 := C.sub origin
    let d : Vec3 := ⟨dir.comp ix, dir.comp iy, dir.comp iz⟩
    let a : Vec3 := ⟨a0.comp ix, a0.comp iy, a0.comp iz⟩
    let b : Vec3 := ⟨b0.comp ix, b0.comp iy, b0.comp iz⟩
    let c : Vec3 := ⟨c0.comp ix, c0.comp iy, c0.comp iz⟩
    let sx := d.x / d.z
    let sy := d.y / d.z
    let a_xy : ℝ × ℝ := (a.x - a.z * sx, a.y - a.z * sy)
    let b_xy : ℝ × ℝ := (b.x - b.z * sx, b.y - b.z * sy)
    let c_xy : ℝ × ℝ := (c.x - c.z * sx, c.y - c.z * sy)
    let e_a := perp_dot b_xy c_xy
    let e_b := perp_dot c_xy a_xy
    let e_c := perp_dot a_xy b_xy
    if (e_a < 0 ∨ e_b < 0 ∨ e_c < 0) ∧ (e_a > 0 ∨ e_b > 0 ∨ e_c > 0) then
      none
    else
      let det := e_a + e_b + e_c
      if det = 0 then none
      else
        let scale := 1 / det
        let t := (a.z * e_a + b.z * e_b + c.z * e_c) * scale / d.z
        if t < 0 then none
        else
          let n_dot := n.dot dir
          let normal :=
            if Vec3.rsignum (An.dot dir) = Vec3.rsignum n_dot ∧
                Vec3.rsignum (Bn.dot dir) = Vec3.rsignum n_dot ∧
                Vec3.rsignum (Cn.dot dir) = Vec3.rsignum n_dot then
              (Vec3.smul scale (((Vec3.smul e_a An).add (Vec3.smul e_b Bn)).add
                (Vec3.smul e_c Cn))).normalize
            else n
          some ⟨t, normal, n, material⟩

/-- Embedding of `Object::raycast` for the two primitive kinds; the
triangle case selects the permutation by the largest absolute direction
component (src/objects.rs lines 102-107) and normalizes the shading normal
(lines 141-151). -/
def Prim.raycast (p : Prim) (origin dir : Vec3) : Option RayHit :=
  match p with
  | .sphere so r m => sphereRaycast so r m origin dir
  | .tri A B C An Bn Cn m =>
      let dabs := dir.vabs
      if dabs.x ≥ dabs.y ∧ dabs.x ≥ dabs.z then
        triRaycastPerm A B C An Bn Cn m origin dir 1 2 0
      else if dabs.y ≥ dabs.z then
        triRaycastPerm A B C An Bn Cn m origin dir 2 0 1
      else triRaycastPerm A B C An Bn Cn m origin dir 0 1 2

/-- The self-intersection guard shared by `Scene::raycast` (src/scene.rs
line 33) and `Bvh::raycast` (src/bvh.rs line 89):
`hit.t < best.t - hit.normal·dir * 1e-12`, where an absent best models the
initial `max_t = ∞` (every finite hit passes). -/
def acceptHit (hit : RayHit) (best : Option RayHit) (dir : Vec3) : Prop :=
  match best with
  | none => True
  | some b => hit.t < b.t - hit.normal.dot dir * 1.0e-12

open Classical in
/-- Embedding of the loop of `Scene::raycast` (src/scene.rs lines 29-40):
test every primitive in order, keeping a hit exactly when it passes the
guard against the current best. -/
def linearRaycastGo (origin dir : Vec3) :
    List Prim → Option RayHit → Option RayHit
  | [], best => best
  | p :: rest, best =>
      match p.raycast origin dir with
      | some hit =>
          if acceptHit hit best dir then
            linearRaycastGo origin dir rest (some hit)
          else linearRaycastGo origin dir rest best
      | none => linearRaycastGo origin dir rest best

/-- The linear scan over all primitives (`Scene::raycast` with
`max_t = ∞`). -/
def sceneRaycast (prims : List Prim) (origin dir : Vec3) : Option RayHit :=
  linearRaycastGo origin dir prims none

/-- Model of the BVH tree (src/bvh.rs lines 14-22): leaves store the index
of their single primitive. -/
inductive BvhTree where
  | leaf (bounds : Bounds) (index : ℕ)
  | node (bounds : Bounds) (left right : BvhTree)

def BvhTree.bounds : BvhTree → Bounds
  | .leaf b _ => b
  | .node b _ _ => b

def BvhTree.size : BvhTree → ℕ
  | .leaf _ _ => 1
  | .node _ l r => 1 + l.size + r.size

/-- Stable insertion sort by a real-valued key, modelling the ordering
contract of `select_nth_unstable_by_key` + `split_at_mut` in
`build_bvh_node` (src/bvh.rs lines 57-60): after the call, the first
`split` elements have keys no larger than the rest.  A full sort satisfies
that contract (the in-half order is irrelevant to the traversal). -/
def insertByKey {α : Type} (key : α → ℝ) (a : α) : List α → List α
  | [] => [a]
  | b :: rest =>
      if key a ≤ key b then a :: b :: rest else b :: insertByKey key a rest

def sortByKey {α : Type} (key : α → ℝ) : List α → List α
  | [] => []
  | a :: rest => insertByKey key a (sortByKey key rest)

/-- Embedding of `build_bvh_node` (src/bvh.rs lines 35-69): compute the
union of the objects' bounds and of their centroid point-bounds, pick the
axis of largest centroid extent, median-split on it, and recurse; a
singleton list becomes a leaf holding the object's index.  The `fuel`
argument only bounds the recursion depth — every call made below passes at
least the list length, which the halving recursion never exhausts — and
the fuel-exhausted and empty cases are unreachable (the Rust code panics
on an empty list). -/
def build_bvh_node : ℕ → List (ℕ × Prim) → BvhTree
  | _, [] => .leaf (Bounds.point Vec3.zero) 0
  | 0, o :: _ => .leaf o.2.bounds o.1
  | _ + 1, [o] => .leaf o.2.bounds o.1
  | fuel + 1, o :: r1 :: rs =>
      let rest := r1 :: rs
      let bounds := rest.foldl (fun b p => b.union p.2.bounds) o.2.bounds
      let cbounds := rest.foldl
        (fun b p => b.union (Bounds.point p.2.bounds.centroid))
        (Bounds.point o.2.bounds.centroid)
      let size := cbounds.max.sub cbounds.min
      let dim : ℕ :=
        if size.x ≥ size.y ∧ size.x ≥ size.z then 0
        else if size.y ≥ size.z then 1 else 2
      let sorted := sortByKey (fun p => p.2.bounds.centroid.comp dim)
        (o :: rest)
      let split := (o :: rest).length / 2
      .node bounds (build_bvh_node fuel (sorted.take split))
        (build_bvh_node fuel (sorted.drop split))

/-- Embedding of `Bvh::build` (src/bvh.rs lines 25-33): build over the
enumerated object list. -/
def Bvh.build (objs : List Prim) : BvhTree :=
  build_bvh_node objs.length objs.enum

/-- The running `t_hit` of the traversal: `∞` (`none`) until a hit is
accepted, then the accepted hit's `t`. -/
def tHitOf (closest : Option RayHit) : Option ℝ := closest.map RayHit.t

open Classical in
/-- Embedding of the traversal loop of `Bvh::raycast` (src/bvh.rs lines
76-113): pop a node, test its bounds against the ray with the current
`t_hit`; on a leaf, raycast its primitive and accept through the guard; on
an inner node, push the children whose bounds pass (pushing child 0 then
child 1, so child 1 is popped first). -/
def bvhGo (objs : List Prim) (origin dir : Vec3) :
    List BvhTree → Option RayHit → Option RayHit
  | [], closest => closest
  | nd :: stack, closest =>
      match nd.bounds.ray_intersect origin dir (tHitOf closest) with
      | none => bvhGo objs origin dir stack closest
      | some _ =>
          match nd with
          | .leaf _ index =>
              match (objs.getD index (.sphere Vec3.zero 0 0)).raycast origin
                  dir with
              | some hit =>
                  if acceptHit hit closest dir then
                    bvhGo objs origin dir stack (some hit)
                  else bvhGo objs origin dir stack closest
              | none => bvhGo objs origin dir stack closest
          | .node _ l r =>
              match l.bounds.ray_intersect origin dir (tHitOf closest),
                  r.bounds.ray_intersect origin dir (tHitOf closest) with
              | none, none => bvhGo objs origin dir stack closest
              | some _, none => bvhGo objs origin dir (l :: stack) closest
              | none, some _ => bvhGo objs origin dir (r :: stack) closest
              | some _, some _ =>
                  bvhGo objs origin dir (r :: l :: stack) closest
  termination_by stack _ => (stack.map BvhTree.size).sum
  decreasing_by
    all_goals simp only [List.map_cons, List.sum_cons, BvhTree.size]
    all_goals try omega
    all_goals cases nd
    all_goals simp only [List.map_cons, List.sum_cons, BvhTree.size]
    all_goals omega

/-- Embedding of `Bvh::raycast` (src/bvh.rs lines 76-113): run the
traversal from a stack holding the root, with no hit and `t_hit = ∞`. -/
def bvhRaycast (objs : List Prim) (origin dir : Vec3) : Option RayHit :=
  bvhGo objs origin dir [Bvh.build objs] none

/-- Componentwise box membership. -/
def inBounds (b : Bounds) (p : Vec3) : Prop :=
  b.min.x ≤ p.x ∧ p.x ≤ b.max.x ∧ b.min.y ≤ p.y ∧ p.y ≤ b.max.y ∧
  b.min.z ≤ p.z ∧ p.z ≤ b.max.z

/-- Every leaf of the tree indexes an existing primitive. -/
def TreeValidFor (objs : List Prim) : BvhTree → Prop
  | .leaf _ i => ∃ p, objs[i]? = some p
  | .node _ l r => TreeValidFor objs l ∧ TreeValidFor objs r

/-- The tree has a root-to-leaf path of boxes containing `point` ending in
a leaf that indexes `pstar`. -/
def goodFor (objs : List Prim) (pstar : Prim) (point : Vec3) :
    BvhTree → Prop
  | .leaf b i => objs[i]? = some pstar ∧ inBounds b point
  | .node b l r =>
      inBounds b point ∧
        (goodFor objs pstar point l ∨ goodFor objs pstar point r)

/-- The hit `hstar` dominates `h` under the traversal guard for direction
`dir`: it is at least as close, it displaces `h` as the current best, and
`h` cannot displace it. -/
def Dominates (dir : Vec3) (hstar h : RayHit) : Prop :=
  hstar.t ≤ h.t ∧ hstar.t < h.t - hstar.normal.dot dir * 1.0e-12 ∧
  ¬(h.t < hstar.t - h.normal.dot dir * 1.0e-12)

/-- Geometric well-formedness of a primitive: spheres have non-negative
radius. -/
def Prim.wf : Prim → Prop
  | .sphere _ r _ => 0 ≤ r
  | .tri _ _ _ _ _ _ _ => True

/-- Model of `Pixel` (src/main.rs lines 230-235): a per-pixel Welford
accumulator.  `count` is an `f64` in the source. -/
structure Pixel where
  mean : Vec3
  m2 : Vec3
  count : ℝ

/-- Initial pixel (`Default::default()`: all zeros). -/
def Pixel.init : Pixel := ⟨Vec3.zero, Vec3.zero, 0⟩

/-- Embedding of `Pixel::accumulate_sample` (src/main.rs lines 306-312):
`delta = value - mean; count += 1; mean += delta / count;
delta2 = value - mean; m2 += delta * delta2`. -/
def Pixel.accumulate_sample (p : Pixel) (value : Vec3) : Pixel :=
  let delta := value.sub p.mean
  let count := p.count + 1
  let mean := p.mean.add (delta.divs count)
  let delta2 := value.sub mean
  { mean := mean, m2 := p.m2.add (delta.mul delta2), count := count }

/-- Embedding of `Pixel::sterr_sq` (src/main.rs lines 318-320):
`m2 / (count - 1) / count`. -/
def Pixel.sterr_sq (p : Pixel) : Vec3 := (p.m2.divs (p.count - 1)).divs p.count

/-- Feeding a finite stream of values to the accumulator. -/
def Pixel.accumulate_list (p : Pixel) (xs : List Vec3) : Pixel :=
  xs.foldl Pixel.accumulate_sample p

/-- Sum of squared deviations of a list of reals from a point `t`. -/
def sqdev (xs : List ℝ) (t : ℝ) : ℝ := (xs.map (fun a => (a - t) ^ 2)).sum

/-- Concrete `TestMedium` instance used to exhibit the position bug of the
delta-tracking loop: constant absorption 1, no emission, no scattering. -/
def C1med : Medium :=
  TestMedium (ConstantSpectrum 1) (ConstantSpectrum 0) (ConstantSpectrum 0)

/-- Concrete `AtmosphereMie` instance: origin at 0, sea level radius 1,
sea-level density 1, scale height 1. -/
def C3mie : AtmosphereMie := ⟨Vec3.zero, 1, 1, 1, 0⟩

/-! ## Theorems -/

theorem Vec3.ext_iff3 {a b : Vec3} :
    a = b ↔ a.x = b.x ∧ a.y = b.y ∧ a.z = b.z := by
  constructor
  · rintro rfl; exact ⟨rfl, rfl, rfl⟩
  · rintro ⟨h1, h2, h3⟩; cases a; cases b; simp_all

theorem Vec4.ext_iff4 {a b : Vec4} :
    a = b ↔ a.x = b.x ∧ a.y = b.y ∧ a.z = b.z ∧ a.w = b.w := by
  constructor
  · rintro rfl; exact ⟨rfl, rfl, rfl, rfl⟩
  · rintro ⟨h1, h2, h3, h4⟩; cases a; cases b; simp_all

theorem sqrt_eval {a b : ℝ} (hb : 0 ≤ b) (h : a = b ^ 2) : Real.sqrt a = b := by
  rw [h, Real.sqrt_sq hb]

theorem countLE_eq_zero {data : List (ℝ × ℝ)} {lambda : ℝ}
    (h : ∀ e ∈ data, lambda < e.1) : countLE data lambda = 0 := by
  induction data with
  | nil => rfl
  | cons e rest ih =>
      rw [countLE, if_neg (not_le.mpr (h e (by simp)))]
      exact ih fun x hx => h x (by simp [hx])

theorem countLE_eq_length {data : List (ℝ × ℝ)} {lambda : ℝ}
    (h : ∀ e ∈ data, e.1 ≤ lambda) : countLE data lambda = data.length := by
  induction data with
  | nil => rfl
  | cons e rest ih =>
      rw [countLE, if_pos (h e (by simp)), ih fun x hx => h x (by simp [hx])]
      simp

theorem pairwise_le_getLast {data : List (ℝ × ℝ)}
    (hsort : data.Pairwise (fun a b => a.1 < b.1)) :
    ∀ eN ∈ data.getLast?, ∀ e ∈ data, e.1 ≤ eN.1 := by
  induction data with
  | nil => simp
  | cons a rest ih =>
      intro eN hN e he
      obtain ⟨ha, hrest⟩ := List.pairwise_cons.mp hsort
      cases rest with
      | nil =>
          have h1 : a = eN := by simpa using hN
          have h2 : e = a := by simpa using he
          rw [h2, h1]
      | cons b rest2 =>
          rw [List.getLast?_cons_cons] at hN
          have hNmem : eN ∈ b :: rest2 := by
            rcases List.mem_getLast?_eq_getLast hN with ⟨hne, heq⟩
            rw [heq]
            exact List.getLast_mem hne
          rcases List.mem_cons.mp he with rfl | he2
          · exact le_of_lt (ha eN hNmem)
          · exact ih hrest eN hN e he2

theorem countLE_bracket {data : List (ℝ × ℝ)} {lambda : ℝ} {i : ℕ}
    {lo hi : ℝ × ℝ} (hsort : data.Pairwise (fun a b => a.1 < b.1))
    (hlo : data[i]? = some lo) (hhi : data[i + 1]? = some hi)
    (h1 : lo.1 ≤ lambda) (h2 : lambda < hi.1) :
    countLE data lambda = i + 1 := by
  induction data generalizing i with
  | nil => simp at hlo
  | cons a rest ih =>
      obtain ⟨ha, hrest⟩ := List.pairwise_cons.mp hsort
      cases i with
      | zero =>
          have hlo2 : a = lo := by simpa using hlo
          have hhi2 : rest[0]? = some hi := by simpa using hhi
          cases rest with
          | nil => simp at hhi2
          | cons b rest2 =>
              have hb : b = hi := by simpa using hhi2
              subst hb
              rw [countLE, if_pos (hlo2 ▸ h1), countLE_eq_zero]
              intro e he
              rcases List.mem_cons.mp he with rfl | he2
              · exact h2
              · exact h2.trans ((List.pairwise_cons.mp hrest).1 e he2)
      | succ j =>
          have hlo2 : rest[j]? = some lo := by simpa using hlo
          have hhi2 : rest[j + 1]? = some hi := by simpa using hhi
          have ha1 : a.1 ≤ lambda :=
            le_of_lt (lt_of_lt_of_le (ha lo (List.getElem?_mem hlo2)) h1)
          rw [countLE, if_pos ha1, ih hrest hlo2 hhi2]

/-- C6 counterexample: the claim says `sample` returns 0 for a wavelength
outside the table range; on the table `[(400, 1), (500, 2)]` at λ = 300 the
partition point is 0 and the code indexes `data[0 - 1]` with a `usize`,
which panics (modelled `none`) instead of returning 0. -/
theorem C6_counterexample :
    PiecewiseLinearSpectrum.sample [(400, 1), (500, 2)] 300 = none ∧
    (none : Option ℝ) ≠ some 0 := by
  constructor
  · have h : countLE [(400, 1), (500, 2)] 300 = 0 := by
      apply countLE_eq_zero
      intro e he
      rcases List.mem_cons.mp he with rfl | he2
      · norm_num
      · rcases List.mem_cons.mp he2 with rfl | he3
        · norm_num
        · simp at he3
    unfold PiecewiseLinearSpectrum.sample
    rw [h]
    simp
  · simp

/-- C6 (amended): for a non-empty strictly-sorted table, `sample` returns
the linear interpolation between the two bracketing entries when λ lies in
the half-open range [first wavelength, last wavelength), and panics on an
out-of-bounds table index (modelled `none`) — rather than returning 0 —
when λ is below the first entry or at/above the last entry. -/
theorem C6_pl_sample_interpolates_or_panics (data : List (ℝ × ℝ)) (lambda : ℝ)
    (hsort : data.Pairwise (fun a b => a.1 < b.1)) :
    (∀ e0 ∈ data.head?, lambda < e0.1 →
        PiecewiseLinearSpectrum.sample data lambda = none) ∧
    (∀ eN ∈ data.getLast?, eN.1 ≤ lambda →
        PiecewiseLinearSpectrum.sample data lambda = none) ∧
    (∀ i lo hi, data[i]? = some lo → data[i + 1]? = some hi →
        lo.1 ≤ lambda → lambda < hi.1 →
        PiecewiseLinearSpectrum.sample data lambda
          = some (flerp lo.2 hi.2 ((lambda - lo.1) / (hi.1 - lo.1)))) := by
  refine ⟨?_, ?_, ?_⟩
  · intro e0 h0 hlt
    have hall : ∀ e ∈ data, lambda < e.1 := by
      cases data with
      | nil => simp
      | cons a rest =>
          have ha0 : a = e0 := by simpa using h0
          subst ha0
          intro e he
          rcases List.mem_cons.mp he with rfl | he2
          · exact hlt
          · exact hlt.trans ((List.pairwise_cons.mp hsort).1 e he2)
    unfold PiecewiseLinearSpectrum.sample
    rw [countLE_eq_zero hall]
    simp
  · intro eN hN hle
    have hall : ∀ e ∈ data, e.1 ≤ lambda :=
      fun e he => le_trans (pairwise_le_getLast hsort eN hN e he) hle
    have hne : data ≠ [] := by
      intro h
      rw [h] at hN
      simp at hN
    unfold PiecewiseLinearSpectrum.sample
    rw [countLE_eq_length hall]
    have hlen : data.length ≠ 0 := by simpa using hne
    rw [if_neg hlen]
    have hnone : data[data.length]? = none := by simp
    rw [hnone]
    cases data[data.length - 1]? <;> simp
  · intro i lo hi hlo hhi hl1 hl2
    have hc := countLE_bracket hsort hlo hhi hl1 hl2
    unfold PiecewiseLinearSpectrum.sample
    rw [hc, if_neg (Nat.succ_ne_zero i)]
    simp only [Nat.add_sub_cancel]
    rw [hlo, hhi]

theorem C6_pl_sample_interpolates_or_panics_witness :
    PiecewiseLinearSpectrum.sample [(400, 1), (500, 3)] 450 = some 2 ∧
    PiecewiseLinearSpectrum.sample [(400, 1), (500, 3)] 600 = none := by
  have hsort : ([(400, 1), (500, 3)] : List (ℝ × ℝ)).Pairwise
      (fun a b => a.1 < b.1) := by
    simp [List.pairwise_cons]
    norm_num
  constructor
  · have h := (C6_pl_sample_interpolates_or_panics [(400, 1), (500, 3)] 450
      hsort).2.2 0 (400, 1) (500, 3) rfl rfl (by norm_num) (by norm_num)
    rw [h]
    norm_num [flerp]
  · exact (C6_pl_sample_interpolates_or_panics [(400, 1), (500, 3)] 600
      hsort).2.1 (500, 3) rfl (by norm_num)

theorem Vec3.add_dot (a b c : Vec3) : (a.add b).dot c = a.dot c + b.dot c := by
  simp [Vec3.add, Vec3.dot]; ring

theorem Vec3.dot_add (a b c : Vec3) : a.dot (b.add c) = a.dot b + a.dot c := by
  simp [Vec3.add, Vec3.dot]; ring

theorem Vec3.smul_dot (s : ℝ) (a b : Vec3) :
    (Vec3.smul s a).dot b = s * a.dot b := by
  simp [Vec3.smul, Vec3.dot]; ring

theorem Vec3.dot_smul (s : ℝ) (a b : Vec3) :
    a.dot (Vec3.smul s b) = s * a.dot b := by
  simp [Vec3.smul, Vec3.dot]; ring

theorem Vec3.dot_comm (a b : Vec3) : a.dot b = b.dot a := by
  simp [Vec3.dot]; ring

/-- Orthonormality of the Pixar basis construction: for a unit vector the
two returned vectors are unit, mutually orthogonal and orthogonal to the
input. -/
theorem any_orthonormal_pair_spec (v : Vec3) (hv : v.dot v = 1) :
    (v.any_orthonormal_pair.1).dot v.any_orthonormal_pair.1 = 1 ∧
    (v.any_orthonormal_pair.2).dot v.any_orthonormal_pair.2 = 1 ∧
    (v.any_orthonormal_pair.1).dot v.any_orthonormal_pair.2 = 0 ∧
    (v.any_orthonormal_pair.1).dot v = 0 ∧
    (v.any_orthonormal_pair.2).dot v = 0 := by
  obtain ⟨x, y, z⟩ := v
  simp only [Vec3.dot] at hv
  by_cases hz : z ≥ 0
  · have hs : Vec3.rsignum z = 1 := if_pos hz
    have hu : 1 + z ≠ 0 := by intro h; nlinarith
    simp only [Vec3.any_orthonormal_pair, Vec3.dot, hs]
    refine ⟨?_, ?_, ?_, ?_, ?_⟩
    · field_simp
      linear_combination (x ^ 2) * hv
    · field_simp
      linear_combination (y ^ 2) * hv
    · field_simp
      linear_combination (x * y + x * y * z * (2 + z)) * hv
    · field_simp
      linear_combination (-x) * hv
    · field_simp
      linear_combination (-y - y * z) * hv
  · have hs : Vec3.rsignum z = -1 := if_neg hz
    have hu : -1 + z ≠ 0 := by intro h; push_neg at hz; nlinarith
    simp only [Vec3.any_orthonormal_pair, Vec3.dot, hs]
    refine ⟨?_, ?_, ?_, ?_, ?_⟩
    · field_simp
      linear_combination (x ^ 2) * hv
    · field_simp
      linear_combination (y ^ 2) * hv
    · field_simp
      linear_combination (x * y + x * y * (2 * z - 2 - z ^ 2)) * hv
    · field_simp
      linear_combination x * hv
    · field_simp
      linear_combination (y - y * z) * hv

/-- C7: for the distant disk light, `pdf` is `1/(2π(1-cos_r))` inside the
cap and 0 outside; and for a unit light axis and `u.x ∈ [0, 1)`, `sample`
returns a unit direction inside the cap with infinite distance. -/
theorem C7_distant_disk_light (l : DistantDiskLight) (pos : Vec3)
    (lambdas : Vec4) (u : Vec3) (hunit : l.dir.dot l.dir = 1)
    (hcu : l.cos_radius ≤ 1) (hcl : -1 ≤ l.cos_radius)
    (hu0 : 0 ≤ u.x) (hu1 : u.x < 1) :
    (∀ d : Vec3, l.pdf pos d lambdas =
        if d.dot l.dir ≥ l.cos_radius then 1 / (2 * π * (1 - l.cos_radius))
        else 0) ∧
    (l.sample pos lambdas u).dist = none ∧
    (l.sample pos lambdas u).dir.dot l.dir ≥ l.cos_radius ∧
    (l.sample pos lambdas u).dir.length = 1 := by
  obtain ⟨hTT, hBB, hTB, hTv, hBv⟩ := any_orthonormal_pair_spec l.dir hunit
  have hBT : (l.dir.any_orthonormal_pair.2).dot l.dir.any_orthonormal_pair.1
      = 0 := (Vec3.dot_comm _ _).trans hTB
  have hvT : l.dir.dot l.dir.any_orthonormal_pair.1 = 0 :=
    (Vec3.dot_comm _ _).trans hTv
  have hvB : l.dir.dot l.dir.any_orthonormal_pair.2 = 0 :=
    (Vec3.dot_comm _ _).trans hBv
  have hzge : l.cos_radius ≤ flerp l.cos_radius 1 u.x := by
    rw [flerp]
    nlinarith
  have hzle : flerp l.cos_radius 1 u.x ≤ 1 := by
    rw [flerp]
    nlinarith
  have h1z : 0 ≤ 1 - flerp l.cos_radius 1 u.x * flerp l.cos_radius 1 u.x := by
    nlinarith
  have hr2 : Real.sqrt (1 - flerp l.cos_radius 1 u.x * flerp l.cos_radius 1 u.x)
        * Real.sqrt (1 - flerp l.cos_radius 1 u.x * flerp l.cos_radius 1 u.x)
      = 1 - flerp l.cos_radius 1 u.x * flerp l.cos_radius 1 u.x :=
    Real.mul_self_sqrt h1z
  have hxy : Real.sin (u.y * π * 2) * Real.sin (u.y * π * 2) +
      Real.cos (u.y * π * 2) * Real.cos (u.y * π * 2) = 1 := by
    have h := Real.sin_sq_add_cos_sq (u.y * π * 2)
    nlinarith [h]
  refine ⟨?_, ?_, ?_, ?_⟩
  · intro d
    rw [DistantDiskLight.pdf]
    by_cases hd : d.dot l.dir ≥ l.cos_radius
    · rw [if_pos hd, if_pos hd]
      ring_nf
    · rw [if_neg hd, if_neg hd]
  · rfl
  · show Vec3.dot _ _ ≥ l.cos_radius
    simp only [DistantDiskLight.sample, Vec3.add_dot, Vec3.smul_dot, hTv, hBv,
      hunit]
    ring_nf
    ring_nf at hzge
    linarith [hzge]
  · show Vec3.length _ = 1
    rw [Vec3.length]
    simp only [DistantDiskLight.sample, Vec3.add_dot, Vec3.dot_add,
      Vec3.smul_dot, Vec3.dot_smul, hTT, hBB, hTB, hBT, hTv, hBv, hvT, hvB,
      hunit]
    rw [show (1 : ℝ) = Real.sqrt 1 from Real.sqrt_one.symm]
    congr 1
    rw [Real.sqrt_one]
    linear_combination
      (Real.sqrt (1 - flerp l.cos_radius 1 u.x * flerp l.cos_radius 1 u.x) *
        Real.sqrt (1 - flerp l.cos_radius 1 u.x * flerp l.cos_radius 1 u.x))
        * hxy + hr2

theorem C7_distant_disk_light_witness :
    ((DistantDiskLight.mk (ConstantSpectrum 5) ⟨0, 0, 1⟩ (1 / 2)).sample
        Vec3.zero (Vec4.splat 500) Vec3.zero).dist = none ∧
    ((DistantDiskLight.mk (ConstantSpectrum 5) ⟨0, 0, 1⟩ (1 / 2)).sample
        Vec3.zero (Vec4.splat 500) Vec3.zero).dir.dot ⟨0, 0, 1⟩ ≥ 1 / 2 := by
  have h := C7_distant_disk_light
    (DistantDiskLight.mk (ConstantSpectrum 5) ⟨0, 0, 1⟩ (1 / 2))
    Vec3.zero (Vec4.splat 500) Vec3.zero
    (by simp [Vec3.dot]) (by norm_num) (by norm_num)
    (le_refl (Vec3.zero).x) (by simp [Vec3.zero])
  exact ⟨h.2.1, h.2.2.1⟩

/-- C5: `DielectricBrdf::sample` reflects exactly when the random number is
below the real Fresnel reflectance at the hero wavelength and refracts
otherwise; `terminate_secondary` holds exactly on the refraction branch;
and beyond the critical angle at the hero wavelength (`sin²θ_t ≥ 1`) it
returns the reflection direction with pdf 1. -/
theorem C5_dielectric_sample (brdf : DielectricBrdf) (outgoing normal : Vec3)
    (lambdas : Vec4) (u : Vec3) :
    let pr := brdf.adjusted outgoing normal lambdas
    let reflected := outgoing.reflect pr.2
    let cos_i := reflected.dot pr.2
    let fr := pr.1.map (fun i => fresnel_reflectance_real cos_i i)
    (u.z < fr.x →
        brdf.sample outgoing normal lambdas u =
          ⟨reflected, fr.x, fr.divs cos_i, false, true⟩) ∧
    (¬u.z < fr.x →
        brdf.sample outgoing normal lambdas u =
          ⟨outgoing.refract pr.2 (1 / pr.1.x), 1 - fr.x,
            Vec4.splat ((1 - fr.x) /
              |(outgoing.refract pr.2 (1 / pr.1.x)).dot pr.2| /
              (pr.1.x * pr.1.x)), true, true⟩) ∧
    ((1 - cos_i * cos_i) / (pr.1.x * pr.1.x) ≥ 1 → u.z < 1 →
        (brdf.sample outgoing normal lambdas u).dir = reflected ∧
        (brdf.sample outgoing normal lambdas u).pdf = 1) := by
  intro pr reflected cos_i fr
  have hfrx : fr.x = fresnel_reflectance_real cos_i pr.1.x := rfl
  refine ⟨?_, ?_, ?_⟩
  · intro hu
    rw [DielectricBrdf.sample, if_pos hu]
  · intro hu
    rw [DielectricBrdf.sample, if_neg hu]
  · intro htir hu1
    have hF : fresnel_reflectance_real cos_i pr.1.x = 1 := by
      rw [fresnel_reflectance_real, if_pos htir]
    have hu : u.z < fr.x := by rw [hfrx, hF]; exact hu1
    rw [DielectricBrdf.sample, if_pos hu]
    exact ⟨rfl, hfrx ▸ hF⟩

theorem C5_dielectric_sample_witness :
    ((DielectricBrdf.mk (ConstantSpectrum (3 / 2))).sample
        ⟨4 / 5, 0, 3 / 5⟩ ⟨0, 0, 1⟩ (Vec4.splat 500) ⟨0, 0, 1 / 2⟩).dir
      = (⟨4 / 5, 0, 3 / 5⟩ : Vec3).reflect
          ((DielectricBrdf.mk (ConstantSpectrum (3 / 2))).adjusted
            ⟨4 / 5, 0, 3 / 5⟩ ⟨0, 0, 1⟩ (Vec4.splat 500)).2 ∧
    ((DielectricBrdf.mk (ConstantSpectrum (3 / 2))).sample
        ⟨4 / 5, 0, 3 / 5⟩ ⟨0, 0, 1⟩ (Vec4.splat 500) ⟨0, 0, 1 / 2⟩).pdf = 1 := by
  have h := (C5_dielectric_sample (DielectricBrdf.mk (ConstantSpectrum (3 / 2)))
    ⟨4 / 5, 0, 3 / 5⟩ ⟨0, 0, 1⟩ (Vec4.splat 500) ⟨0, 0, 1 / 2⟩).2.2
  have htir : (1 -
      ((⟨4 / 5, 0, 3 / 5⟩ : Vec3).reflect
        ((DielectricBrdf.mk (ConstantSpectrum (3 / 2))).adjusted
          ⟨4 / 5, 0, 3 / 5⟩ ⟨0, 0, 1⟩ (Vec4.splat 500)).2).dot
        ((DielectricBrdf.mk (ConstantSpectrum (3 / 2))).adjusted
          ⟨4 / 5, 0, 3 / 5⟩ ⟨0, 0, 1⟩ (Vec4.splat 500)).2 *
      ((⟨4 / 5, 0, 3 / 5⟩ : Vec3).reflect
        ((DielectricBrdf.mk (ConstantSpectrum (3 / 2))).adjusted
          ⟨4 / 5, 0, 3 / 5⟩ ⟨0, 0, 1⟩ (Vec4.splat 500)).2).dot
        ((DielectricBrdf.mk (ConstantSpectrum (3 / 2))).adjusted
          ⟨4 / 5, 0, 3 / 5⟩ ⟨0, 0, 1⟩ (Vec4.splat 500)).2) /
      (((DielectricBrdf.mk (ConstantSpectrum (3 / 2))).adjusted
          ⟨4 / 5, 0, 3 / 5⟩ ⟨0, 0, 1⟩ (Vec4.splat 500)).1.x *
        ((DielectricBrdf.mk (ConstantSpectrum (3 / 2))).adjusted
          ⟨4 / 5, 0, 3 / 5⟩ ⟨0, 0, 1⟩ (Vec4.splat 500)).1.x) ≥ 1 := by
    rw [DielectricBrdf.adjusted, if_neg (by
      simp only [Vec3.dot]
      norm_num)]
    simp only [Spectrum.sample_multi, ConstantSpectrum, Vec4.map, Vec4.splat,
      Vec4.rdiv, Vec3.neg, Vec3.reflect, Vec3.dot, Vec3.sub, Vec3.smul]
    norm_num
  exact h htir (by norm_num)

theorem sqdev_shift (xs : List ℝ) (m t : ℝ) :
    sqdev xs t = sqdev xs m + 2 * (m - t) * (xs.sum - xs.length * m)
      + xs.length * (m - t) ^ 2 := by
  induction xs with
  | nil => simp [sqdev]
  | cons a rest ih =>
      simp only [sqdev, List.map_cons, List.sum_cons, List.length_cons] at ih ⊢
      push_cast
      push_cast at ih
      rw [ih]
      ring

theorem welford_invariant (xs : List Vec3) :
    (Pixel.init.accumulate_list xs).count = xs.length ∧
    ((Pixel.init.accumulate_list xs).mean.x * xs.length
        = (xs.map (fun v => v.x)).sum ∧
      (Pixel.init.accumulate_list xs).mean.y * xs.length
        = (xs.map (fun v => v.y)).sum ∧
      (Pixel.init.accumulate_list xs).mean.z * xs.length
        = (xs.map (fun v => v.z)).sum) ∧
    ((Pixel.init.accumulate_list xs).m2.x
        = sqdev (xs.map (fun v => v.x)) (Pixel.init.accumulate_list xs).mean.x ∧
      (Pixel.init.accumulate_list xs).m2.y
        = sqdev (xs.map (fun v => v.y)) (Pixel.init.accumulate_list xs).mean.y ∧
      (Pixel.init.accumulate_list xs).m2.z
        = sqdev (xs.map (fun v => v.z)) (Pixel.init.accumulate_list xs).mean.z) := by
  induction xs using List.reverseRecOn with
  | nil => simp [Pixel.accumulate_list, Pixel.init, Vec3.zero, sqdev]
  | append_singleton xs v ih =>
      obtain ⟨hc, ⟨hmx, hmy, hmz⟩, ⟨h2x, h2y, h2z⟩⟩ := ih
      have hstep : Pixel.init.accumulate_list (xs ++ [v]) =
          (Pixel.init.accumulate_list xs).accumulate_sample v := by
        simp [Pixel.accumulate_list]
      have key : ∀ (f : Vec3 → ℝ) (m m2 : ℝ),
          m * (xs.length : ℝ) = (xs.map f).sum →
          m2 = sqdev (xs.map f) m →
          ((m + (f v - m) / ((xs.length : ℝ) + 1)) * ((xs.length : ℝ) + 1)
              = (xs.map f).sum + f v) ∧
          (m2 + (f v - m) * (f v - (m + (f v - m) / ((xs.length : ℝ) + 1)))
              = sqdev (xs.map f ++ [f v])
                  (m + (f v - m) / ((xs.length : ℝ) + 1))) := by
        intro f m m2 hm hm2
        have hne2 : ((xs.length : ℝ) + 1) ≠ 0 := by positivity
        constructor
        · field_simp
          linear_combination hm
        · have happ : sqdev (xs.map f ++ [f v])
              (m + (f v - m) / ((xs.length : ℝ) + 1))
              = sqdev (xs.map f) (m + (f v - m) / ((xs.length : ℝ) + 1))
                + (f v - (m + (f v - m) / ((xs.length : ℝ) + 1))) ^ 2 := by
            simp [sqdev]
          rw [happ, sqdev_shift (xs.map f) m
            (m + (f v - m) / ((xs.length : ℝ) + 1)), hm2]
          simp only [List.length_map]
          rw [← hm]
          field_simp
          ring
      rw [hstep]
      simp only [Pixel.accumulate_sample, Vec3.sub, Vec3.add, Vec3.divs,
        Vec3.mul, List.length_append, List.length_singleton, List.map_append,
        List.map_cons, List.map_nil, hc]
      push_cast
      refine ⟨by ring, ⟨?_, ?_, ?_⟩, ⟨?_, ?_, ?_⟩⟩
      · have h := (key (fun w => w.x) _ _ hmx h2x).1
        simpa using h
      · have h := (key (fun w => w.y) _ _ hmy h2y).1
        simpa using h
      · have h := (key (fun w => w.z) _ _ hmz h2z).1
        simpa using h
      · have h := (key (fun w => w.x) _ _ hmx h2x).2
        simpa using h
      · have h := (key (fun w => w.y) _ _ hmy h2y).2
        simpa using h
      · have h := (key (fun w => w.z) _ _ hmz h2z).2
        simpa using h

/-- C8: after `n ≥ 2` accumulate calls, the pixel state has `count = n`,
`mean` equal to the componentwise arithmetic mean, `m2` equal to the
componentwise sum of squared deviations from the final mean, and
`m2 / (count * (count - 1))` (the code's `sterr_sq`) equal to the sample
standard error squared of the mean — exactly over the reals. -/
theorem C8_welford_accumulator (xs : List Vec3) (hn : 2 ≤ xs.length) :
    (Pixel.init.accumulate_list xs).count = xs.length ∧
    ((Pixel.init.accumulate_list xs).mean.x
        = (xs.map (fun v => v.x)).sum / xs.length ∧
      (Pixel.init.accumulate_list xs).mean.y
        = (xs.map (fun v => v.y)).sum / xs.length ∧
      (Pixel.init.accumulate_list xs).mean.z
        = (xs.map (fun v => v.z)).sum / xs.length) ∧
    ((Pixel.init.accumulate_list xs).m2.x
        = sqdev (xs.map (fun v => v.x)) (Pixel.init.accumulate_list xs).mean.x ∧
      (Pixel.init.accumulate_list xs).m2.y
        = sqdev (xs.map (fun v => v.y)) (Pixel.init.accumulate_list xs).mean.y ∧
      (Pixel.init.accumulate_list xs).m2.z
        = sqdev (xs.map (fun v => v.z)) (Pixel.init.accumulate_list xs).mean.z) ∧
    ((Pixel.init.accumulate_list xs).sterr_sq.x
        = sqdev (xs.map (fun v => v.x)) (Pixel.init.accumulate_list xs).mean.x
          / ((xs.length : ℝ) * ((xs.length : ℝ) - 1)) ∧
      (Pixel.init.accumulate_list xs).sterr_sq.y
        = sqdev (xs.map (fun v => v.y)) (Pixel.init.accumulate_list xs).mean.y
          / ((xs.length : ℝ) * ((xs.length : ℝ) - 1)) ∧
      (Pixel.init.accumulate_list xs).sterr_sq.z
        = sqdev (xs.map (fun v => v.z)) (Pixel.init.accumulate_list xs).mean.z
          / ((xs.length : ℝ) * ((xs.length : ℝ) - 1))) := by
  obtain ⟨hc, ⟨hmx, hmy, hmz⟩, ⟨h2x, h2y, h2z⟩⟩ := welford_invariant xs
  have hn0 : ((xs.length : ℝ)) ≠ 0 := by
    have : (0 : ℝ) < xs.length := by exact_mod_cast lt_of_lt_of_le (by norm_num) hn
    exact ne_of_gt this
  refine ⟨hc, ⟨?_, ?_, ?_⟩, ⟨h2x, h2y, h2z⟩, ⟨?_, ?_, ?_⟩⟩
  · exact (eq_div_iff hn0).mpr hmx
  · exact (eq_div_iff hn0).mpr hmy
  · exact (eq_div_iff hn0).mpr hmz
  · simp only [Pixel.sterr_sq, Vec3.divs, hc, h2x]
    rw [div_div, mul_comm]
  · simp only [Pixel.sterr_sq, Vec3.divs, hc, h2y]
    rw [div_div, mul_comm]
  · simp only [Pixel.sterr_sq, Vec3.divs, hc, h2z]
    rw [div_div, mul_comm]

theorem C8_welford_accumulator_witness :
    (Pixel.init.accumulate_list [⟨1, 2, 3⟩, ⟨3, 4, 5⟩]).count = 2 ∧
    (Pixel.init.accumulate_list [⟨1, 2, 3⟩, ⟨3, 4, 5⟩]).mean.x = 2 ∧
    (Pixel.init.accumulate_list [⟨1, 2, 3⟩, ⟨3, 4, 5⟩]).sterr_sq.x = 1 := by
  obtain ⟨hc, ⟨hmx, hmy, hmz⟩, h2, ⟨hsx, hsy, hsz⟩⟩ :=
    C8_welford_accumulator [⟨1, 2, 3⟩, ⟨3, 4, 5⟩] (by norm_num)
  have hm : (Pixel.init.accumulate_list [⟨1, 2, 3⟩, ⟨3, 4, 5⟩]).mean.x = 2 := by
    rw [hmx]
    norm_num
  rw [hm] at hsx
  refine ⟨by rw [hc]; norm_num, hm, ?_⟩
  rw [hsx]
  norm_num [sqdev]

theorem C4hitA :
    (Prim.sphere ⟨0, 0, 0.2⟩ 0.8 1).raycast ⟨0, 0, 0⟩ ⟨0, 0, 1⟩
      = some ⟨1, ⟨0, 0, 1⟩, ⟨0, 0, 1⟩, 1⟩ := by
  have hs : Real.sqrt (2 * (Vec3.dot (Vec3.sub ⟨0, 0, 0⟩ ⟨0, 0, 0.2⟩) ⟨0, 0, 1⟩) *
      (2 * (Vec3.dot (Vec3.sub ⟨0, 0, 0⟩ ⟨0, 0, 0.2⟩) ⟨0, 0, 1⟩)) -
      4 * 1 * (Vec3.dot (Vec3.sub ⟨0, 0, 0⟩ ⟨0, 0, 0.2⟩)
        (Vec3.sub ⟨0, 0, 0⟩ ⟨0, 0, 0.2⟩) - 0.8 * 0.8)) = 1.6 := by
    rw [show (2 * (Vec3.dot (Vec3.sub ⟨0, 0, 0⟩ ⟨0, 0, 0.2⟩) ⟨0, 0, 1⟩) *
      (2 * (Vec3.dot (Vec3.sub ⟨0, 0, 0⟩ ⟨0, 0, 0.2⟩) ⟨0, 0, 1⟩)) -
      4 * 1 * (Vec3.dot (Vec3.sub ⟨0, 0, 0⟩ ⟨0, 0, 0.2⟩)
        (Vec3.sub ⟨0, 0, 0⟩ ⟨0, 0, 0.2⟩) - 0.8 * 0.8) : ℝ) = 1.6 ^ 2 by
      simp [Vec3.dot, Vec3.sub]
      norm_num]
    exact Real.sqrt_sq (by norm_num)
  rw [Prim.raycast, sphereRaycast]
  simp only [hs]
  norm_num [Vec3.sub, Vec3.dot, Vec3.add, Vec3.smul, Vec3.normalize,
    Vec3.divs, Vec3.length]
  rw [show (16 : ℝ) = 4 ^ 2 by norm_num, show (25 : ℝ) = 5 ^ 2 by norm_num,
    Real.sqrt_sq (by norm_num : (0 : ℝ) ≤ 4),
    Real.sqrt_sq (by norm_num : (0 : ℝ) ≤ 5)]
  norm_num

theorem C4hitB :
    (Prim.sphere ⟨0, 0, 0.4⟩ 0.6 2).raycast ⟨0, 0, 0⟩ ⟨0, 0, 1⟩
      = some ⟨1, ⟨0, 0, 1⟩, ⟨0, 0, 1⟩, 2⟩ := by
  have hs : Real.sqrt (2 * (Vec3.dot (Vec3.sub ⟨0, 0, 0⟩ ⟨0, 0, 0.4⟩) ⟨0, 0, 1⟩) *
      (2 * (Vec3.dot (Vec3.sub ⟨0, 0, 0⟩ ⟨0, 0, 0.4⟩) ⟨0, 0, 1⟩)) -
      4 * 1 * (Vec3.dot (Vec3.sub ⟨0, 0, 0⟩ ⟨0, 0, 0.4⟩)
        (Vec3.sub ⟨0, 0, 0⟩ ⟨0, 0, 0.4⟩) - 0.6 * 0.6)) = 1.2 := by
    rw [show (2 * (Vec3.dot (Vec3.sub ⟨0, 0, 0⟩ ⟨0, 0, 0.4⟩) ⟨0, 0, 1⟩) *
      (2 * (Vec3.dot (Vec3.sub ⟨0, 0, 0⟩ ⟨0, 0, 0.4⟩) ⟨0, 0, 1⟩)) -
      4 * 1 * (Vec3.dot (Vec3.sub ⟨0, 0, 0⟩ ⟨0, 0, 0.4⟩)
        (Vec3.sub ⟨0, 0, 0⟩ ⟨0, 0, 0.4⟩) - 0.6 * 0.6) : ℝ) = 1.2 ^ 2 by
      simp [Vec3.dot, Vec3.sub]
      norm_num]
    exact Real.sqrt_sq (by norm_num)
  rw [Prim.raycast, sphereRaycast]
  simp only [hs]
  norm_num [Vec3.sub, Vec3.dot, Vec3.add, Vec3.smul, Vec3.normalize,
    Vec3.divs, Vec3.length]
  rw [show (9 : ℝ) = 3 ^ 2 by norm_num, show (25 : ℝ) = 5 ^ 2 by norm_num,
    Real.sqrt_sq (by norm_num : (0 : ℝ) ≤ 3),
    Real.sqrt_sq (by norm_num : (0 : ℝ) ≤ 5)]
  norm_num

theorem insertByKey_perm {α : Type} (key : α → ℝ) (a : α) (l : List α) :
    (insertByKey key a l).Perm (a :: l) := by
  induction l with
  | nil => simp [insertByKey]
  | cons b rest ih =>
      rw [insertByKey]
      by_cases h : key a ≤ key b
      · rw [if_pos h]
      · rw [if_neg h]
        exact (List.Perm.cons b ih).trans (List.Perm.swap a b rest)

theorem sortByKey_perm {α : Type} (key : α → ℝ) (l : List α) :
    (sortByKey key l).Perm l := by
  induction l with
  | nil => simp [sortByKey]
  | cons a rest ih =>
      rw [sortByKey]
      exact (insertByKey_perm key a (sortByKey key rest)).trans
        (List.Perm.cons a ih)

theorem slab_bracket (mn mx o d t : ℝ) (hd : d ≠ 0)
    (h1 : mn ≤ o + t * d) (h2 : o + t * d ≤ mx) :
    Min.min ((mn - o) / d) ((mx - o) / d) ≤ t ∧
    t ≤ Max.max ((mn - o) / d) ((mx - o) / d) := by
  rcases lt_or_gt_of_ne hd with hneg | hpos
  · constructor
    · refine le_trans (min_le_right _ _) ?_
      rw [div_le_iff_of_neg hneg]
      nlinarith
    · refine le_trans ?_ (le_max_left _ _)
      rw [le_div_iff_of_neg hneg]
      nlinarith
  · constructor
    · refine le_trans (min_le_left _ _) ?_
      rw [div_le_iff hpos]
      nlinarith
    · refine le_trans ?_ (le_max_right _ _)
      rw [le_div_iff hpos]
      nlinarith

theorem ray_intersect_conservative (b : Bounds) (origin dir : Vec3) (t : ℝ)
    (tmax : Option ℝ) (hdx : dir.x ≠ 0) (hdy : dir.y ≠ 0) (hdz : dir.z ≠ 0)
    (ht : 0 ≤ t) (hin : inBounds b (origin.add (Vec3.smul t dir)))
    (htm : ∀ m ∈ tmax, t ≤ m) :
    ∃ pr, b.ray_intersect origin dir tmax = some pr := by
  obtain ⟨hx1, hx2, hy1, hy2, hz1, hz2⟩ := hin
  simp only [Vec3.add, Vec3.smul] at hx1 hx2 hy1 hy2 hz1 hz2
  have bx := slab_bracket b.min.x b.max.x origin.x dir.x t hdx
    (by nlinarith) (by nlinarith)
  have by0 := slab_bracket b.min.y b.max.y origin.y dir.y t hdy
    (by nlinarith) (by nlinarith)
  have bz := slab_bracket b.min.z b.max.z origin.z dir.z t hdz
    (by nlinarith) (by nlinarith)
  have h0 : Max.max (Max.max (Max.max (Min.min ((b.min.x - origin.x) / dir.x)
      ((b.max.x - origin.x) / dir.x)) (Min.min ((b.min.y - origin.y) / dir.y)
      ((b.max.y - origin.y) / dir.y))) (Min.min ((b.min.z - origin.z) / dir.z)
      ((b.max.z - origin.z) / dir.z))) 0 ≤ t := by
    simp only [max_le_iff]
    exact ⟨⟨⟨bx.1, by0.1⟩, bz.1⟩, ht⟩
  cases tmax with
  | none =>
      rw [Bounds.ray_intersect]
      simp only [Vec3.sub, Vec3.divv, Vec3.cmin, Vec3.cmax, Vec3.max_element,
        Vec3.min_element]
      rw [if_pos ?hc]
      · exact ⟨_, rfl⟩
      case hc =>
        refine le_trans h0 ?_
        simp only [le_min_iff]
        exact ⟨⟨bx.2, by0.2⟩, bz.2⟩
  | some m =>
      rw [Bounds.ray_intersect]
      simp only [Vec3.sub, Vec3.divv, Vec3.cmin, Vec3.cmax, Vec3.max_element,
        Vec3.min_element]
      rw [if_pos ?hc2]
      · exact ⟨_, rfl⟩
      case hc2 =>
        refine le_trans h0 ?_
        simp only [le_min_iff]
        exact ⟨⟨⟨bx.2, by0.2⟩, bz.2⟩, htm m rfl⟩

theorem inBounds_union_left {a : Bounds} (b : Bounds) {p : Vec3}
    (h : inBounds a p) : inBounds (a.union b) p := by
  obtain ⟨h1, h2, h3, h4, h5, h6⟩ := h
  refine ⟨?_, ?_, ?_, ?_, ?_, ?_⟩ <;>
    simp only [Bounds.union, Vec3.cmin, Vec3.cmax]
  · exact le_trans (min_le_left _ _) h1
  · exact le_trans h2 (le_max_left _ _)
  · exact le_trans (min_le_left _ _) h3
  · exact le_trans h4 (le_max_left _ _)
  · exact le_trans (min_le_left _ _) h5
  · exact le_trans h6 (le_max_left _ _)

theorem inBounds_union_right (a : Bounds) {b : Bounds} {p : Vec3}
    (h : inBounds b p) : inBounds (a.union b) p := by
  obtain ⟨h1, h2, h3, h4, h5, h6⟩ := h
  refine ⟨?_, ?_, ?_, ?_, ?_, ?_⟩ <;>
    simp only [Bounds.union, Vec3.cmin, Vec3.cmax]
  · exact le_trans (min_le_right _ _) h1
  · exact le_trans h2 (le_max_right _ _)
  · exact le_trans (min_le_right _ _) h3
  · exact le_trans h4 (le_max_right _ _)
  · exact le_trans (min_le_right _ _) h5
  · exact le_trans h6 (le_max_right _ _)

theorem foldl_union_contains (l : List (ℕ × Prim)) (b0 : Bounds) (p : Vec3)
    (h : inBounds b0 p ∨ ∃ q ∈ l, inBounds q.2.bounds p) :
    inBounds (l.foldl (fun b q => b.union q.2.bounds) b0) p := by
  induction l generalizing b0 with
  | nil =>
      rcases h with h | ⟨q, hq, _⟩
      · exact h
      · simp at hq
  | cons a rest ih =>
      rw [List.foldl_cons]
      apply ih
      rcases h with h | ⟨q, hq, hqb⟩
      · exact Or.inl (inBounds_union_left _ h)
      · rcases List.mem_cons.mp hq with rfl | hq2
        · exact Or.inl (inBounds_union_right _ hqb)
        · exact Or.inr ⟨q, hq2, hqb⟩

theorem build_goodFor (fuel : ℕ) (xs : List (ℕ × Prim)) (objs : List Prim)
    (pstar : Prim) (point : Vec3) (i : ℕ)
    (hfuel : xs.length ≤ fuel + 1)
    (hmem : (i, pstar) ∈ xs) (hidx : objs[i]? = some pstar)
    (hin : inBounds pstar.bounds point) :
    goodFor objs pstar point (build_bvh_node fuel xs) := by
  induction fuel generalizing xs with
  | zero =>
      match xs, hmem with
      | [o], hmem =>
          have ho : (i, pstar) = o := by simpa using hmem
          subst ho
          rw [build_bvh_node]
          exact ⟨hidx, hin⟩
      | o1 :: o2 :: rest, hmem =>
          simp at hfuel
  | succ fuel ih =>
      match xs, hmem with
      | [o], hmem =>
          have ho : (i, pstar) = o := by simpa using hmem
          subst ho
          rw [build_bvh_node]
          exact ⟨hidx, hin⟩
      | o :: r1 :: rs, hmem =>
          have hsplit : ∀ s : List (ℕ × Prim), s.Perm (o :: r1 :: rs) →
              goodFor objs pstar point
                (build_bvh_node fuel (s.take ((o :: r1 :: rs).length / 2))) ∨
              goodFor objs pstar point
                (build_bvh_node fuel (s.drop ((o :: r1 :: rs).length / 2))) := by
            intro s hs
            have hmem2 : (i, pstar) ∈ s := hs.mem_iff.mpr hmem
            have hlen : s.length = (o :: r1 :: rs).length := hs.length_eq
            rcases List.mem_append.mp
                ((List.take_append_drop ((o :: r1 :: rs).length / 2) s) ▸
                  hmem2) with h | h
            · left
              refine ih _ ?_ h
              rw [List.length_take]
              simp only [List.length_cons] at hfuel hlen ⊢
              omega
            · right
              refine ih _ ?_ h
              rw [List.length_drop]
              simp only [List.length_cons] at hfuel hlen ⊢
              omega
          simp only [build_bvh_node, goodFor]
          refine ⟨?_, ?_⟩
          · rcases List.mem_cons.mp hmem with heq | hrest
            · apply foldl_union_contains
              rw [show o = (i, pstar) from heq.symm]
              exact Or.inl hin
            · apply foldl_union_contains
              exact Or.inr ⟨(i, pstar), hrest, hin⟩
          · exact hsplit _ (sortByKey_perm _ _)

theorem build_valid (fuel : ℕ) (xs : List (ℕ × Prim)) (objs : List Prim)
    (hne : xs ≠ [])
    (hvalid : ∀ pr ∈ xs, ∃ p, objs[pr.1]? = some p) :
    TreeValidFor objs (build_bvh_node fuel xs) := by
  induction fuel generalizing xs with
  | zero =>
      match xs, hne with
      | o :: rest, _ =>
          rw [build_bvh_node]
          exact hvalid o (by simp)
  | succ fuel ih =>
      match xs, hne with
      | [o], _ =>
          rw [build_bvh_node]
          exact hvalid o (by simp)
      | o :: r1 :: rs, _ =>
          simp only [build_bvh_node, TreeValidFor]
          have hsplit : ∀ s : List (ℕ × Prim), s.Perm (o :: r1 :: rs) →
              TreeValidFor objs
                (build_bvh_node fuel (s.take ((o :: r1 :: rs).length / 2))) ∧
              TreeValidFor objs
                (build_bvh_node fuel (s.drop ((o :: r1 :: rs).length / 2))) := by
            intro s hs
            have hlen : s.length = (o :: r1 :: rs).length := hs.length_eq
            constructor
            · apply ih
              · apply List.ne_nil_of_length_pos
                rw [List.length_take]
                simp only [List.length_cons] at hlen ⊢
                omega
              · intro pr hpr
                exact hvalid pr (hs.subset ((List.take_prefix _ _).subset hpr))
            · apply ih
              · apply List.ne_nil_of_length_pos
                rw [List.length_drop]
                simp only [List.length_cons] at hlen ⊢
                omega
              · intro pr hpr
                exact hvalid pr (hs.subset ((List.drop_suffix _ _).subset hpr))
          exact hsplit _ (sortByKey_perm _ _)

theorem triRaycastPerm_t_nonneg (A B C An Bn Cn : Vec3) (m : ℕ)
    (o d : Vec3) (ix iy iz : ℕ) (hit : RayHit)
    (h : triRaycastPerm A B C An Bn Cn m o d ix iy iz = some hit) :
    0 ≤ hit.t := by
  simp only [triRaycastPerm] at h
  split_ifs at h with h1 h2 h3 h4 h5
  all_goals try exact Option.noConfusion h
  all_goals
    have ht := congrArg RayHit.t (Option.some.inj h)
  all_goals simp only at ht
  all_goals rw [← ht]
  all_goals linarith [h4]

theorem raycast_t_nonneg (p : Prim) (o d : Vec3) (hit : RayHit)
    (h : p.raycast o d = some hit) : 0 ≤ hit.t := by
  cases p with
  | sphere so r m =>
      simp only [Prim.raycast, sphereRaycast] at h
      split_ifs at h with hdet ht1 ht0
      all_goals try exact Option.noConfusion h
      · have ht := congrArg RayHit.t (Option.some.inj h)
        simp only at ht
        rw [← ht]
        linarith [ht0]
      · have ht := congrArg RayHit.t (Option.some.inj h)
        simp only at ht
        rw [← ht]
        linarith [ht1]
  | tri A B C An Bn Cn m =>
      simp only [Prim.raycast] at h
      split_ifs at h with h1 h2
      · exact triRaycastPerm_t_nonneg A B C An Bn Cn m o d 1 2 0 hit h
      · exact triRaycastPerm_t_nonneg A B C An Bn Cn m o d 2 0 1 hit h
      · exact triRaycastPerm_t_nonneg A B C An Bn Cn m o d 0 1 2 hit h

theorem comp_bound {u r : ℝ} (hr : 0 ≤ r) (h : u * u ≤ r * r) :
    -r ≤ u ∧ u ≤ r := by
  constructor <;> nlinarith

theorem sphere_hit_in_bounds (so : Vec3) (r : ℝ) (m : ℕ) (o d : Vec3)
    (hit : RayHit) (hr : 0 ≤ r) (hd : d.dot d = 1)
    (h : sphereRaycast so r m o d = some hit) :
    inBounds (Prim.bounds (.sphere so r m))
      (o.add (Vec3.smul hit.t d)) := by
  simp only [sphereRaycast] at h
  split_ifs at h with hdet ht1 ht0
  all_goals try exact Option.noConfusion h
  case pos =>
      have ht := congrArg RayHit.t (Option.some.inj h)
      simp only at ht
      rw [not_lt] at hdet
      have hs := Real.sq_sqrt hdet
      have hq : hit.t ^ 2 + 2 * ((o.sub so).dot d) * hit.t +
          ((o.sub so).dot (o.sub so) - r * r) = 0 := by
        rw [← ht]
        linear_combination (1 / 4) * hs
      simp only [Vec3.dot, Vec3.sub] at hq
      simp only [Vec3.dot] at hd
      simp only [Prim.bounds, inBounds, Vec3.subs, Vec3.adds, Vec3.add,
        Vec3.smul]
      have hsph : (o.x + hit.t * d.x - so.x) * (o.x + hit.t * d.x - so.x) +
          (o.y + hit.t * d.y - so.y) * (o.y + hit.t * d.y - so.y) +
          (o.z + hit.t * d.z - so.z) * (o.z + hit.t * d.z - so.z) = r * r := by
        linear_combination hq + hit.t ^ 2 * hd
      have hb1 := comp_bound hr (show (o.x + hit.t * d.x - so.x) *
          (o.x + hit.t * d.x - so.x) ≤ r * r by
        linarith [hsph, mul_self_nonneg (o.y + hit.t * d.y - so.y),
          mul_self_nonneg (o.z + hit.t * d.z - so.z)])
      have hb2 := comp_bound hr (show (o.y + hit.t * d.y - so.y) *
          (o.y + hit.t * d.y - so.y) ≤ r * r by
        linarith [hsph, mul_self_nonneg (o.x + hit.t * d.x - so.x),
          mul_self_nonneg (o.z + hit.t * d.z - so.z)])
      have hb3 := comp_bound hr (show (o.z + hit.t * d.z - so.z) *
          (o.z + hit.t * d.z - so.z) ≤ r * r by
        linarith [hsph, mul_self_nonneg (o.x + hit.t * d.x - so.x),
          mul_self_nonneg (o.y + hit.t * d.y - so.y)])
      exact ⟨by linarith [hb1.1], by linarith [hb1.2], by linarith [hb2.1],
        by linarith [hb2.2], by linarith [hb3.1], by linarith [hb3.2]⟩
  case neg =>
      have ht := congrArg RayHit.t (Option.some.inj h)
      simp only at ht
      rw [not_lt] at hdet
      have hs := Real.sq_sqrt hdet
      have hq : hit.t ^ 2 + 2 * ((o.sub so).dot d) * hit.t +
          ((o.sub so).dot (o.sub so) - r * r) = 0 := by
        rw [← ht]
        linear_combination (1 / 4) * hs
      simp only [Vec3.dot, Vec3.sub] at hq
      simp only [Vec3.dot] at hd
      simp only [Prim.bounds, inBounds, Vec3.subs, Vec3.adds, Vec3.add,
        Vec3.smul]
      have hsph : (o.x + hit.t * d.x - so.x) * (o.x + hit.t * d.x - so.x) +
          (o.y + hit.t * d.y - so.y) * (o.y + hit.t * d.y - so.y) +
          (o.z + hit.t * d.z - so.z) * (o.z + hit.t * d.z - so.z) = r * r := by
        linear_combination hq + hit.t ^ 2 * hd
      have hb1 := comp_bound hr (show (o.x + hit.t * d.x - so.x) *
          (o.x + hit.t * d.x - so.x) ≤ r * r by
        linarith [hsph, mul_self_nonneg (o.y + hit.t * d.y - so.y),
          mul_self_nonneg (o.z + hit.t * d.z - so.z)])
      have hb2 := comp_bound hr (show (o.y + hit.t * d.y - so.y) *
          (o.y + hit.t * d.y - so.y) ≤ r * r by
        linarith [hsph, mul_self_nonneg (o.x + hit.t * d.x - so.x),
          mul_self_nonneg (o.z + hit.t * d.z - so.z)])
      have hb3 := comp_bound hr (show (o.z + hit.t * d.z - so.z) *
          (o.z + hit.t * d.z - so.z) ≤ r * r by
        linarith [hsph, mul_self_nonneg (o.x + hit.t * d.x - so.x),
          mul_self_nonneg (o.y + hit.t * d.y - so.y)])
      exact ⟨by linarith [hb1.1], by linarith [hb1.2], by linarith [hb2.1],
        by linarith [hb2.2], by linarith [hb3.1], by linarith [hb3.2]⟩

theorem convex_bracket (ea eb ec pa pb pc v : ℝ)
    (hdet : ea + eb + ec ≠ 0)
    (hsign : (0 ≤ ea ∧ 0 ≤ eb ∧ 0 ≤ ec) ∨ (ea ≤ 0 ∧ eb ≤ 0 ∧ ec ≤ 0))
    (hv : v * (ea + eb + ec) = pa * ea + pb * eb + pc * ec) :
    Min.min (Min.min pa pb) pc ≤ v ∧ v ≤ Max.max (Max.max pa pb) pc := by
  have m1 : Min.min (Min.min pa pb) pc ≤ pa :=
    le_trans (min_le_left _ _) (min_le_left _ _)
  have m2 : Min.min (Min.min pa pb) pc ≤ pb :=
    le_trans (min_le_left _ _) (min_le_right _ _)
  have m3 : Min.min (Min.min pa pb) pc ≤ pc := min_le_right _ _
  have M1 : pa ≤ Max.max (Max.max pa pb) pc :=
    le_trans (le_max_left _ _) (le_max_left _ _)
  have M2 : pb ≤ Max.max (Max.max pa pb) pc :=
    le_trans (le_max_right _ _) (le_max_left _ _)
  have M3 : pc ≤ Max.max (Max.max pa pb) pc := le_max_right _ _
  rcases hsign with ⟨h1, h2, h3⟩ | ⟨h1, h2, h3⟩
  · have hdpos : 0 < ea + eb + ec := lt_of_le_of_ne (by linarith) (Ne.symm hdet)
    constructor
    · nlinarith [mul_le_mul_of_nonneg_right m1 h1,
        mul_le_mul_of_nonneg_right m2 h2, mul_le_mul_of_nonneg_right m3 h3]
    · nlinarith [mul_le_mul_of_nonneg_right M1 h1,
        mul_le_mul_of_nonneg_right M2 h2, mul_le_mul_of_nonneg_right M3 h3]
  · have hdneg : ea + eb + ec < 0 := lt_of_le_of_ne (by linarith) hdet
    constructor
    · nlinarith [mul_le_mul_of_nonpos_right m1 h1,
        mul_le_mul_of_nonpos_right m2 h2, mul_le_mul_of_nonpos_right m3 h3]
    · nlinarith [mul_le_mul_of_nonpos_right M1 h1,
        mul_le_mul_of_nonpos_right M2 h2, mul_le_mul_of_nonpos_right M3 h3]

theorem comp_sub (a b : Vec3) (k : ℕ) :
    (a.sub b).comp k = a.comp k - b.comp k := by
  unfold Vec3.comp
  split_ifs <;> simp [Vec3.sub]

theorem tri_core {aX aY aZ bX bY bZ cX cY cZ dX dY dZ t eA eB eC : ℝ}
    (hdz : dZ ≠ 0)
    (heA : eA = (bX - bZ * (dX / dZ)) * (cY - cZ * (dY / dZ)) -
      (bY - bZ * (dY / dZ)) * (cX - cZ * (dX / dZ)))
    (heB : eB = (cX - cZ * (dX / dZ)) * (aY - aZ * (dY / dZ)) -
      (cY - cZ * (dY / dZ)) * (aX - aZ * (dX / dZ)))
    (heC : eC = (aX - aZ * (dX / dZ)) * (bY - bZ * (dY / dZ)) -
      (aY - aZ * (dY / dZ)) * (bX - bZ * (dX / dZ)))
    (hsign : ¬((eA < 0 ∨ eB < 0 ∨ eC < 0) ∧ (eA > 0 ∨ eB > 0 ∨ eC > 0)))
    (hdet : ¬(eA + eB + eC = 0))
    (ht : (aZ * eA + bZ * eB + cZ * eC) * (1 / (eA + eB + eC)) / dZ = t) :
    (Min.min (Min.min aX bX) cX ≤ t * dX ∧
      t * dX ≤ Max.max (Max.max aX bX) cX) ∧
    (Min.min (Min.min aY bY) cY ≤ t * dY ∧
      t * dY ≤ Max.max (Max.max aY bY) cY) ∧
    (Min.min (Min.min aZ bZ) cZ ≤ t * dZ ∧
      t * dZ ≤ Max.max (Max.max aZ bZ) cZ) := by
  have hsign' : (0 ≤ eA ∧ 0 ≤ eB ∧ 0 ≤ eC) ∨ (eA ≤ 0 ∧ eB ≤ 0 ∧ eC ≤ 0) := by
    rcases not_and_or.mp hsign with h' | h'
    · left
      push_neg at h'
      exact h'
    · right
      push_neg at h'
      exact h'
  have hvz : t * dZ * (eA + eB + eC) = aZ * eA + bZ * eB + cZ * eC := by
    rw [← ht]
    field_simp
    ring
  have hxid : (eA * aX + eB * bX + eC * cX) * dZ =
      dX * (aZ * eA + bZ * eB + cZ * eC) := by
    rw [heA, heB, heC]
    field_simp
    ring
  have hyid : (eA * aY + eB * bY + eC * cY) * dZ =
      dY * (aZ * eA + bZ * eB + cZ * eC) := by
    rw [heA, heB, heC]
    field_simp
    ring
  have hvx : t * dX * (eA + eB + eC) = aX * eA + bX * eB + cX * eC := by
    apply mul_left_cancel₀ hdz
    linear_combination dX * hvz - hxid
  have hvy : t * dY * (eA + eB + eC) = aY * eA + bY * eB + cY * eC := by
    apply mul_left_cancel₀ hdz
    linear_combination dY * hvz - hyid
  exact ⟨convex_bracket eA eB eC aX bX cX (t * dX) hdet hsign'
      (by linear_combination hvx),
    convex_bracket eA eB eC aY bY cY (t * dY) hdet hsign'
      (by linear_combination hvy),
    convex_bracket eA eB eC aZ bZ cZ (t * dZ) hdet hsign'
      (by linear_combination hvz)⟩

theorem bracket_shift (a b c oo v : ℝ)
    (h1 : Min.min (Min.min (a - oo) (b - oo)) (c - oo) ≤ v)
    (h2 : v ≤ Max.max (Max.max (a - oo) (b - oo)) (c - oo)) :
    Min.min (Min.min a b) c ≤ oo + v ∧ oo + v ≤ Max.max (Max.max a b) c := by
  rw [min_sub_sub_right, min_sub_sub_right] at h1
  rw [max_sub_sub_right, max_sub_sub_right] at h2
  constructor <;> linarith

theorem triRaycastPerm_bracket (A B C An Bn Cn : Vec3) (m : ℕ)
    (o d : Vec3) (ix iy iz : ℕ) (hit : RayHit)
    (hdz : d.comp iz ≠ 0)
    (h : triRaycastPerm A B C An Bn Cn m o d ix iy iz = some hit) :
    ∀ k, k = ix ∨ k = iy ∨ k = iz →
      Min.min (Min.min (A.comp k) (B.comp k)) (C.comp k) ≤
          o.comp k + hit.t * d.comp k ∧
        o.comp k + hit.t * d.comp k ≤
          Max.max (Max.max (A.comp k) (B.comp k)) (C.comp k) := by
  have hcore :
      (Min.min (Min.min ((A.sub o).comp ix) ((B.sub o).comp ix))
          ((C.sub o).comp ix) ≤ hit.t * d.comp ix ∧
        hit.t * d.comp ix ≤ Max.max (Max.max ((A.sub o).comp ix)
          ((B.sub o).comp ix)) ((C.sub o).comp ix)) ∧
      (Min.min (Min.min ((A.sub o).comp iy) ((B.sub o).comp iy))
          ((C.sub o).comp iy) ≤ hit.t * d.comp iy ∧
        hit.t * d.comp iy ≤ Max.max (Max.max ((A.sub o).comp iy)
          ((B.sub o).comp iy)) ((C.sub o).comp iy)) ∧
      (Min.min (Min.min ((A.sub o).comp iz) ((B.sub o).comp iz))
          ((C.sub o).comp iz) ≤ hit.t * d.comp iz ∧
        hit.t * d.comp iz ≤ Max.max (Max.max ((A.sub o).comp iz)
          ((B.sub o).comp iz)) ((C.sub o).comp iz)) := by
    simp only [triRaycastPerm, perp_dot] at h
    split_ifs at h with h1 h2 h3 h4 h5
    all_goals try exact Option.noConfusion h
    all_goals have ht := congrArg RayHit.t (Option.some.inj h)
    all_goals simp only at ht
    all_goals exact tri_core hdz rfl rfl rfl h2 h3 ht
  intro k hk
  rcases hk with rfl | rfl | rfl
  · have hx := hcore.1
    rw [comp_sub, comp_sub, comp_sub] at hx
    exact bracket_shift _ _ _ _ _ hx.1 hx.2
  · have hx := hcore.2.1
    rw [comp_sub, comp_sub, comp_sub] at hx
    exact bracket_shift _ _ _ _ _ hx.1 hx.2
  · have hx := hcore.2.2
    rw [comp_sub, comp_sub, comp_sub] at hx
    exact bracket_shift _ _ _ _ _ hx.1 hx.2

theorem tri_hit_in_bounds (A B C An Bn Cn : Vec3) (m : ℕ) (o d : Vec3)
    (hit : RayHit) (hdx : d.x ≠ 0) (hdy : d.y ≠ 0) (hdz : d.z ≠ 0)
    (h : (Prim.tri A B C An Bn Cn m).raycast o d = some hit) :
    inBounds (Prim.bounds (.tri A B C An Bn Cn m))
      (o.add (Vec3.smul hit.t d)) := by
  simp only [Prim.raycast] at h
  split_ifs at h with hp1 hp2
  · have hb := triRaycastPerm_bracket A B C An Bn Cn m o d 1 2 0 hit hdx h
    exact ⟨(hb 0 (Or.inr (Or.inr rfl))).1, (hb 0 (Or.inr (Or.inr rfl))).2,
      (hb 1 (Or.inl rfl)).1, (hb 1 (Or.inl rfl)).2,
      (hb 2 (Or.inr (Or.inl rfl))).1, (hb 2 (Or.inr (Or.inl rfl))).2⟩
  · have hb := triRaycastPerm_bracket A B C An Bn Cn m o d 2 0 1 hit hdy h
    exact ⟨(hb 0 (Or.inr (Or.inl rfl))).1, (hb 0 (Or.inr (Or.inl rfl))).2,
      (hb 1 (Or.inr (Or.inr rfl))).1, (hb 1 (Or.inr (Or.inr rfl))).2,
      (hb 2 (Or.inl rfl)).1, (hb 2 (Or.inl rfl)).2⟩
  · have hb := triRaycastPerm_bracket A B C An Bn Cn m o d 0 1 2 hit hdz h
    exact ⟨(hb 0 (Or.inl rfl)).1, (hb 0 (Or.inl rfl)).2,
      (hb 1 (Or.inr (Or.inl rfl))).1, (hb 1 (Or.inr (Or.inl rfl))).2,
      (hb 2 (Or.inr (Or.inr rfl))).1, (hb 2 (Or.inr (Or.inr rfl))).2⟩

theorem hit_in_bounds (p : Prim) (o d : Vec3) (hit : RayHit)
    (hw : p.wf) (hd : d.dot d = 1)
    (hdx : d.x ≠ 0) (hdy : d.y ≠ 0) (hdz : d.z ≠ 0)
    (h : p.raycast o d = some hit) :
    inBounds p.bounds (o.add (Vec3.smul hit.t d)) := by
  cases p with
  | sphere so r m => exact sphere_hit_in_bounds so r m o d hit hw hd h
  | tri A B C An Bn Cn m =>
      exact tri_hit_in_bounds A B C An Bn Cn m o d hit hdx hdy hdz h

theorem getD_of_mem {objs : List Prim} {i : ℕ} {p : Prim}
    (h : objs[i]? = some p) :
    objs.getD i (.sphere Vec3.zero 0 0) = p := by
  simp [List.getD_eq_getElem?_getD, h]

theorem mem_of_idx {objs : List Prim} {i : ℕ} {p : Prim}
    (h : objs[i]? = some p) : p ∈ objs :=
  List.getElem?_mem h

theorem goodFor_inBounds (objs : List Prim) (pstar : Prim) (point : Vec3)
    (nd : BvhTree) (h : goodFor objs pstar point nd) :
    inBounds nd.bounds point := by
  cases nd with
  | leaf b i => exact h.2
  | node b l r => exact h.1

theorem bvh_absorb (objs : List Prim) (o d : Vec3) (hstar : RayHit)
    (hdom : ∀ p ∈ objs, ∀ h, p.raycast o d = some h →
      h = hstar ∨ Dominates d hstar h) :
    ∀ stack closest, (∀ nd ∈ stack, TreeValidFor objs nd) →
      closest = some hstar →
      bvhGo objs o d stack closest = some hstar := by
  intro stack closest
  induction stack, closest using bvhGo.induct objs o d with
  | case1 closest =>
      intro _ hc
      rw [bvhGo, hc]
  | case2 nd stack closest hbox ih =>
      intro hv hc
      cases nd with
      | leaf b i =>
          rw [bvhGo]
          simp only [hbox]
          exact ih (fun x hx => hv x (List.mem_cons_of_mem _ hx)) hc
      | node b l r =>
          rw [bvhGo]
          simp only [hbox]
          exact ih (fun x hx => hv x (List.mem_cons_of_mem _ hx)) hc
  | case3 stack closest val b index hit hray hacc hbox ih =>
      intro hv hc
      subst hc
      obtain ⟨p, hp⟩ := hv _ (List.mem_cons_self _ _)
      rw [getD_of_mem hp] at hray
      rw [bvhGo]
      simp only [hbox, getD_of_mem hp, hray]
      rw [if_pos hacc]
      rcases hdom p (mem_of_idx hp) hit hray with rfl | hDom
      · exact ih (fun x hx => hv x (List.mem_cons_of_mem _ hx)) rfl
      · exact absurd hacc hDom.2.2
  | case4 stack closest val b index hit hray hacc hbox ih =>
      intro hv hc
      rw [bvhGo]
      simp only [hbox, hray]
      rw [if_neg hacc]
      exact ih (fun x hx => hv x (List.mem_cons_of_mem _ hx)) hc
  | case5 stack closest val b index hray hbox ih =>
      intro hv hc
      rw [bvhGo]
      simp only [hbox, hray]
      exact ih (fun x hx => hv x (List.mem_cons_of_mem _ hx)) hc
  | case6 stack closest val b left right hr hl hb ih =>
      intro hv hc
      rw [bvhGo]
      simp only [hb, hl, hr]
      exact ih (fun x hx => hv x (List.mem_cons_of_mem _ hx)) hc
  | case7 stack closest val1 b left right val2 hr hl hb ih =>
      intro hv hc
      rw [bvhGo]
      simp only [hb, hl, hr]
      refine ih ?_ hc
      intro x hx
      rcases List.mem_cons.mp hx with rfl | hx
      · exact (hv _ (List.mem_cons_self _ _)).1
      · exact hv x (List.mem_cons_of_mem _ hx)
  | case8 stack closest val1 b left right val2 hr hl hb ih =>
      intro hv hc
      rw [bvhGo]
      simp only [hb, hl, hr]
      refine ih ?_ hc
      intro x hx
      rcases List.mem_cons.mp hx with rfl | hx
      · exact (hv _ (List.mem_cons_self _ _)).2
      · exact hv x (List.mem_cons_of_mem _ hx)
  | case9 stack closest val1 b left right valL valR hr hl hb ih =>
      intro hv hc
      rw [bvhGo]
      simp only [hb, hl, hr]
      refine ih ?_ hc
      intro x hx
      rcases List.mem_cons.mp hx with rfl | hx
      · exact (hv _ (List.mem_cons_self _ _)).2
      · rcases List.mem_cons.mp hx with rfl | hx
        · exact (hv _ (List.mem_cons_self _ _)).1
        · exact hv x (List.mem_cons_of_mem _ hx)

theorem okbest_thit (d : Vec3) (hstar : RayHit) (closest : Option RayHit)
    (hok : closest = none ∨ ∃ h0, closest = some h0 ∧
      (h0 = hstar ∨ Dominates d hstar h0)) :
    ∀ m ∈ tHitOf closest, hstar.t ≤ m := by
  intro m hm
  rcases hok with rfl | ⟨h0, rfl, hh⟩
  · simp [tHitOf] at hm
  · simp only [tHitOf, Option.map, Option.mem_def, Option.some.injEq] at hm
    subst hm
    rcases hh with rfl | hD
    · exact le_refl _
    · exact hD.1

theorem linear_none (o d : Vec3) :
    ∀ (prims : List Prim) (best : Option RayHit),
      (∀ p ∈ prims, p.raycast o d = none) →
      linearRaycastGo o d prims best = best := by
  intro prims
  induction prims with
  | nil => intro best _; rw [linearRaycastGo]
  | cons p rest ih =>
      intro best hmiss
      rw [linearRaycastGo, hmiss p (List.mem_cons_self _ _)]
      exact ih best (fun q hq => hmiss q (List.mem_cons_of_mem _ hq))

theorem linear_absorb (o d : Vec3) (hstar : RayHit) :
    ∀ prims : List Prim,
      (∀ p ∈ prims, ∀ h, p.raycast o d = some h →
        h = hstar ∨ Dominates d hstar h) →
      linearRaycastGo o d prims (some hstar) = some hstar := by
  intro prims
  induction prims with
  | nil => intro _; rw [linearRaycastGo]
  | cons p rest ih =>
      intro hdom
      rw [linearRaycastGo]
      cases hp : p.raycast o d with
      | none => exact ih (fun q hq => hdom q (List.mem_cons_of_mem _ hq))
      | some h =>
          simp only []
          rcases hdom p (List.mem_cons_self _ _) h hp with rfl | hD
          · split_ifs <;>
              exact ih (fun q hq => hdom q (List.mem_cons_of_mem _ hq))
          · have hacc : ¬acceptHit h (some hstar) d := hD.2.2
            rw [if_neg hacc]
            exact ih (fun q hq => hdom q (List.mem_cons_of_mem _ hq))

theorem linear_pending (o d : Vec3) (pstar : Prim) (hstar : RayHit)
    (hps : pstar.raycast o d = some hstar) :
    ∀ prims : List Prim,
      (∀ p ∈ prims, ∀ h, p.raycast o d = some h →
        h = hstar ∨ Dominates d hstar h) →
      pstar ∈ prims →
      ∀ best, (best = none ∨ ∃ h0, best = some h0 ∧
        (h0 = hstar ∨ Dominates d hstar h0)) →
      linearRaycastGo o d prims best = some hstar := by
  intro prims
  induction prims with
  | nil => intro _ hmem; exact absurd hmem (List.not_mem_nil _)
  | cons p rest ih =>
      intro hdom hmem best hok
      have hdr : ∀ q ∈ rest, ∀ h, q.raycast o d = some h →
          h = hstar ∨ Dominates d hstar h :=
        fun q hq => hdom q (List.mem_cons_of_mem _ hq)
      rw [linearRaycastGo]
      cases hp : p.raycast o d with
      | none =>
          rcases List.mem_cons.mp hmem with rfl | hmem'
          · rw [hps] at hp
            exact Option.noConfusion hp
          · exact ih hdr hmem' best hok
      | some h =>
          simp only []
          rcases hdom p (List.mem_cons_self _ _) h hp with rfl | hD
          · split_ifs with hacc
            · exact linear_absorb o d h rest hdr
            · rcases hok with rfl | ⟨h0, rfl, rfl | hD0⟩
              · exact absurd trivial hacc
              · exact linear_absorb o d h0 rest hdr
              · exact absurd hD0.2.1 hacc
          · split_ifs with hacc
            · rcases List.mem_cons.mp hmem with rfl | hmem'
              · rw [hps] at hp
                have hh := Option.some.inj hp
                subst hh
                exact absurd hD.2.1 hD.2.2
              · exact ih hdr hmem' (some h) (Or.inr ⟨h, rfl, Or.inr hD⟩)
            · rcases List.mem_cons.mp hmem with rfl | hmem'
              · rw [hps] at hp
                have hh := Option.some.inj hp
                subst hh
                exact absurd hD.2.1 hD.2.2
              · exact ih hdr hmem' best hok

theorem bvh_none (objs : List Prim) (o d : Vec3)
    (hmiss : ∀ p ∈ objs, p.raycast o d = none) :
    ∀ stack closest, (∀ nd ∈ stack, TreeValidFor objs nd) →
      bvhGo objs o d stack closest = closest := by
  intro stack closest
  induction stack, closest using bvhGo.induct objs o d with
  | case1 closest => intro _; rw [bvhGo]
  | case2 nd stack closest hbox ih =>
      intro hv
      cases nd with
      | leaf b i =>
          rw [bvhGo]
          simp only [hbox]
          exact ih (fun x hx => hv x (List.mem_cons_of_mem _ hx))
      | node b l r =>
          rw [bvhGo]
          simp only [hbox]
          exact ih (fun x hx => hv x (List.mem_cons_of_mem _ hx))
  | case3 stack closest val b index hit hray hacc hbox ih =>
      intro hv
      obtain ⟨p, hp⟩ := hv _ (List.mem_cons_self _ _)
      rw [getD_of_mem hp, hmiss p (mem_of_idx hp)] at hray
      exact Option.noConfusion hray
  | case4 stack closest val b index hit hray hacc hbox ih =>
      intro hv
      obtain ⟨p, hp⟩ := hv _ (List.mem_cons_self _ _)
      rw [getD_of_mem hp, hmiss p (mem_of_idx hp)] at hray
      exact Option.noConfusion hray
  | case5 stack closest val b index hray hbox ih =>
      intro hv
      rw [bvhGo]
      simp only [hbox, hray]
      exact ih (fun x hx => hv x (List.mem_cons_of_mem _ hx))
  | case6 stack closest val b left right hr hl hb ih =>
      intro hv
      rw [bvhGo]
      simp only [hb, hl, hr]
      exact ih (fun x hx => hv x (List.mem_cons_of_mem _ hx))
  | case7 stack closest val1 b left right val2 hr hl hb ih =>
      intro hv
      rw [bvhGo]
      simp only [hb, hl, hr]
      refine ih ?_
      intro x hx
      rcases List.mem_cons.mp hx with rfl | hx
      · exact (hv _ (List.mem_cons_self _ _)).1
      · exact hv x (List.mem_cons_of_mem _ hx)
  | case8 stack closest val1 b left right val2 hr hl hb ih =>
      intro hv
      rw [bvhGo]
      simp only [hb, hl, hr]
      refine ih ?_
      intro x hx
      rcases List.mem_cons.mp hx with rfl | hx
      · exact (hv _ (List.mem_cons_self _ _)).2
      · exact hv x (List.mem_cons_of_mem _ hx)
  | case9 stack closest val1 b left right valL valR hr hl hb ih =>
      intro hv
      rw [bvhGo]
      simp only [hb, hl, hr]
      refine ih ?_
      intro x hx
      rcases List.mem_cons.mp hx with rfl | hx
      · exact (hv _ (List.mem_cons_self _ _)).2
      · rcases List.mem_cons.mp hx with rfl | hx
        · exact (hv _ (List.mem_cons_self _ _)).1
        · exact hv x (List.mem_cons_of_mem _ hx)

theorem bvh_pending (objs : List Prim) (o d : Vec3) (pstar : Prim)
    (hstar : RayHit)
    (hdom : ∀ p ∈ objs, ∀ h, p.raycast o d = some h →
      h = hstar ∨ Dominates d hstar h)
    (hdx : d.x ≠ 0) (hdy : d.y ≠ 0) (hdz : d.z ≠ 0)
    (ht0 : 0 ≤ hstar.t)
    (hps : pstar.raycast o d = some hstar) :
    ∀ stack closest, (∀ nd ∈ stack, TreeValidFor objs nd) →
      (∃ nd ∈ stack, goodFor objs pstar
        (o.add (Vec3.smul hstar.t d)) nd) →
      (closest = none ∨ ∃ h0, closest = some h0 ∧
        (h0 = hstar ∨ Dominates d hstar h0)) →
      bvhGo objs o d stack closest = some hstar := by
  intro stack closest
  induction stack, closest using bvhGo.induct objs o d with
  | case1 closest =>
      intro _ hgood _
      obtain ⟨nd, hmem, _⟩ := hgood
      exact absurd hmem (List.not_mem_nil _)
  | case2 nd stack closest hbox ih =>
      intro hv hgood hok
      obtain ⟨gnd, hgmem, hggood⟩ := hgood
      rcases List.mem_cons.mp hgmem with rfl | hgmem'
      · obtain ⟨pr, hpr⟩ := ray_intersect_conservative gnd.bounds o d hstar.t
          (tHitOf closest) hdx hdy hdz ht0
          (goodFor_inBounds _ _ _ _ hggood)
          (okbest_thit d hstar closest hok)
        rw [hbox] at hpr
        exact Option.noConfusion hpr
      · cases nd with
        | leaf b i =>
            rw [bvhGo]
            simp only [hbox]
            exact ih (fun x hx => hv x (List.mem_cons_of_mem _ hx))
              ⟨gnd, hgmem', hggood⟩ hok
        | node b l r =>
            rw [bvhGo]
            simp only [hbox]
            exact ih (fun x hx => hv x (List.mem_cons_of_mem _ hx))
              ⟨gnd, hgmem', hggood⟩ hok
  | case3 stack closest val b index hit hray hacc hbox ih =>
      intro hv hgood hok
      obtain ⟨p, hp⟩ := hv _ (List.mem_cons_self _ _)
      rw [getD_of_mem hp] at hray
      rw [bvhGo]
      simp only [hbox, getD_of_mem hp, hray]
      rw [if_pos hacc]
      rcases hdom p (mem_of_idx hp) hit hray with rfl | hD
      · exact bvh_absorb objs o d hit hdom stack (some hit)
          (fun x hx => hv x (List.mem_cons_of_mem _ hx)) rfl
      · obtain ⟨gnd, hgmem, hggood⟩ := hgood
        rcases List.mem_cons.mp hgmem with rfl | hgmem'
        · have hip : objs[index]? = some pstar := hggood.1
          rw [hp] at hip
          have hpp := Option.some.inj hip
          subst hpp
          rw [hps] at hray
          have hh := Option.some.inj hray
          subst hh
          exact absurd hD.2.1 hD.2.2
        · exact ih (fun x hx => hv x (List.mem_cons_of_mem _ hx))
            ⟨gnd, hgmem', hggood⟩ (Or.inr ⟨hit, rfl, Or.inr hD⟩)
  | case4 stack closest val b index hit hray hacc hbox ih =>
      intro hv hgood hok
      obtain ⟨p, hp⟩ := hv _ (List.mem_cons_self _ _)
      rw [getD_of_mem hp] at hray
      rw [bvhGo]
      simp only [hbox, getD_of_mem hp, hray]
      rw [if_neg hacc]
      obtain ⟨gnd, hgmem, hggood⟩ := hgood
      rcases List.mem_cons.mp hgmem with rfl | hgmem'
      · have hip : objs[index]? = some pstar := hggood.1
        rw [hp] at hip
        have hpp := Option.some.inj hip
        subst hpp
        rw [hps] at hray
        have hh := Option.some.inj hray
        subst hh
        rcases hok with rfl | ⟨h0, rfl, rfl | hD0⟩
        · exact absurd trivial hacc
        · exact bvh_absorb objs o d h0 hdom stack (some h0)
            (fun x hx => hv x (List.mem_cons_of_mem _ hx)) rfl
        · exact absurd hD0.2.1 hacc
      · exact ih (fun x hx => hv x (List.mem_cons_of_mem _ hx))
          ⟨gnd, hgmem', hggood⟩ hok
  | case5 stack closest val b index hray hbox ih =>
      intro hv hgood hok
      obtain ⟨p, hp⟩ := hv _ (List.mem_cons_self _ _)
      rw [getD_of_mem hp] at hray
      rw [bvhGo]
      simp only [hbox, getD_of_mem hp, hray]
      obtain ⟨gnd, hgmem, hggood⟩ := hgood
      rcases List.mem_cons.mp hgmem with rfl | hgmem'
      · have hip : objs[index]? = some pstar := hggood.1
        rw [hp] at hip
        have hpp := Option.some.inj hip
        subst hpp
        rw [hps] at hray
        exact Option.noConfusion hray
      · exact ih (fun x hx => hv x (List.mem_cons_of_mem _ hx))
          ⟨gnd, hgmem', hggood⟩ hok
  | case6 stack closest val b left right hr hl hb ih =>
      intro hv hgood hok
      rw [bvhGo]
      simp only [hb, hl, hr]
      obtain ⟨gnd, hgmem, hggood⟩ := hgood
      rcases List.mem_cons.mp hgmem with rfl | hgmem'
      · rcases hggood.2 with hgl | hgr
        · obtain ⟨pr, hpr⟩ := ray_intersect_conservative left.bounds o d
            hstar.t (tHitOf closest) hdx hdy hdz ht0
            (goodFor_inBounds _ _ _ _ hgl)
            (okbest_thit d hstar closest hok)
          rw [hl] at hpr
          exact Option.noConfusion hpr
        · obtain ⟨pr, hpr⟩ := ray_intersect_conservative right.bounds o d
            hstar.t (tHitOf closest) hdx hdy hdz ht0
            (goodFor_inBounds _ _ _ _ hgr)
            (okbest_thit d hstar closest hok)
          rw [hr] at hpr
          exact Option.noConfusion hpr
      · exact ih (fun x hx => hv x (List.mem_cons_of_mem _ hx))
          ⟨gnd, hgmem', hggood⟩ hok
  | case7 stack closest val1 b left right val2 hr hl hb ih =>
      intro hv hgood hok
      rw [bvhGo]
      simp only [hb, hl, hr]
      have hv' : ∀ nd ∈ left :: stack, TreeValidFor objs nd := by
        intro x hx
        rcases List.mem_cons.mp hx with rfl | hx
        · exact (hv _ (List.mem_cons_self _ _)).1
        · exact hv x (List.mem_cons_of_mem _ hx)
      obtain ⟨gnd, hgmem, hggood⟩ := hgood
      rcases List.mem_cons.mp hgmem with rfl | hgmem'
      · rcases hggood.2 with hgl | hgr
        · exact ih hv' ⟨left, List.mem_cons_self _ _, hgl⟩ hok
        · obtain ⟨pr, hpr⟩ := ray_intersect_conservative right.bounds o d
            hstar.t (tHitOf closest) hdx hdy hdz ht0
            (goodFor_inBounds _ _ _ _ hgr)
            (okbest_thit d hstar closest hok)
          rw [hr] at hpr
          exact Option.noConfusion hpr
      · exact ih hv' ⟨gnd, List.mem_cons_of_mem _ hgmem', hggood⟩ hok
  | case8 stack closest val1 b left right val2 hr hl hb ih =>
      intro hv hgood hok
      rw [bvhGo]
      simp only [hb, hl, hr]
      have hv' : ∀ nd ∈ right :: stack, TreeValidFor objs nd := by
        intro x hx
        rcases List.mem_cons.mp hx with rfl | hx
        · exact (hv _ (List.mem_cons_self _ _)).2
        · exact hv x (List.mem_cons_of_mem _ hx)
      obtain ⟨gnd, hgmem, hggood⟩ := hgood
      rcases List.mem_cons.mp hgmem with rfl | hgmem'
      · rcases hggood.2 with hgl | hgr
        · obtain ⟨pr, hpr⟩ := ray_intersect_conservative left.bounds o d
            hstar.t (tHitOf closest) hdx hdy hdz ht0
            (goodFor_inBounds _ _ _ _ hgl)
            (okbest_thit d hstar closest hok)
          rw [hl] at hpr
          exact Option.noConfusion hpr
        · exact ih hv' ⟨right, List.mem_cons_self _ _, hgr⟩ hok
      · exact ih hv' ⟨gnd, List.mem_cons_of_mem _ hgmem', hggood⟩ hok
  | case9 stack closest val1 b left right valL valR hr hl hb ih =>
      intro hv hgood hok
      rw [bvhGo]
      simp only [hb, hl, hr]
      have hv' : ∀ nd ∈ right :: left :: stack, TreeValidFor objs nd := by
        intro x hx
        rcases List.mem_cons.mp hx with rfl | hx
        · exact (hv _ (List.mem_cons_self _ _)).2
        · rcases List.mem_cons.mp hx with rfl | hx
          · exact (hv _ (List.mem_cons_self _ _)).1
          · exact hv x (List.mem_cons_of_mem _ hx)
      obtain ⟨gnd, hgmem, hggood⟩ := hgood
      rcases List.mem_cons.mp hgmem with rfl | hgmem'
      · rcases hggood.2 with hgl | hgr
        · exact ih hv' ⟨left, List.mem_cons_of_mem _ (List.mem_cons_self _ _),
            hgl⟩ hok
        · exact ih hv' ⟨right, List.mem_cons_self _ _, hgr⟩ hok
      · exact ih hv' ⟨gnd, List.mem_cons_of_mem _
          (List.mem_cons_of_mem _ hgmem'), hggood⟩ hok

/-- C4 (amended): for a non-empty scene and a ray whose unit direction has
all components nonzero, the BVH traversal of `Bvh::raycast` agrees with the
linear scan of `Scene::raycast`: if every primitive misses, both return no
hit; and if some well-formed primitive returns a hit that dominates every
other primitive's hit under the traversal guard (it is at least as close,
passes the guard against the other hit, and is not displaced by it), both
return exactly that hit.  The claim as stated — agreement on every scene —
fails when two hits tie within the guard's `1e-12` tolerance, where the two
loops' different visiting orders keep different hits (see the
counterexample). -/
theorem C4_bvh_matches_linear (objs : List Prim) (o d : Vec3)
    (hne : objs ≠ [])
    (hdx : d.x ≠ 0) (hdy : d.y ≠ 0) (hdz : d.z ≠ 0) (hd : d.dot d = 1) :
    ((∀ p ∈ objs, p.raycast o d = none) →
      sceneRaycast objs o d = none ∧ bvhRaycast objs o d = none) ∧
    (∀ pstar ∈ objs, pstar.wf → ∀ hstar : RayHit,
      pstar.raycast o d = some hstar →
      (∀ p ∈ objs, ∀ h, p.raycast o d = some h →
        h = hstar ∨ Dominates d hstar h) →
      sceneRaycast objs o d = some hstar ∧
      bvhRaycast objs o d = some hstar) := by
  have henum : objs.enum ≠ [] := by simpa using hne
  have hval : TreeValidFor objs (Bvh.build objs) := by
    apply build_valid objs.length objs.enum objs henum
    intro pr hpr
    exact ⟨pr.2, List.mem_enum_iff_getElem?.mp hpr⟩
  have hstackval : ∀ nd ∈ [Bvh.build objs], TreeValidFor objs nd := by
    intro nd hnd
    rw [List.mem_singleton] at hnd
    subst hnd
    exact hval
  constructor
  · intro hmiss
    constructor
    · rw [sceneRaycast]
      exact linear_none o d objs none hmiss
    · rw [bvhRaycast]
      exact bvh_none objs o d hmiss [Bvh.build objs] none hstackval
  · intro pstar hmem hwf hstar hps hdom
    have ht0 := raycast_t_nonneg pstar o d hstar hps
    have hin := hit_in_bounds pstar o d hstar hwf hd hdx hdy hdz hps
    obtain ⟨i, hi⟩ := List.getElem?_of_mem hmem
    have hgood : goodFor objs pstar (o.add (Vec3.smul hstar.t d))
        (Bvh.build objs) := by
      apply build_goodFor objs.length objs.enum objs pstar _ i
      · simp [List.enum_length]
      · exact List.mem_enum_iff_getElem?.mpr hi
      · exact hi
      · exact hin
    constructor
    · rw [sceneRaycast]
      exact linear_pending o d pstar hstar hps objs hdom hmem none
        (Or.inl rfl)
    · rw [bvhRaycast]
      exact bvh_pending objs o d pstar hstar hdom hdx hdy hdz ht0 hps
        [Bvh.build objs] none hstackval
        ⟨Bvh.build objs, List.mem_cons_self _ _, hgood⟩ (Or.inl rfl)

/-- Witness for the amended C4 theorem: the scene of one unit sphere at
(2,2,1) with the unit ray direction (2/3,2/3,1/3) from the origin; both
raycasts return the hit at t = 2 with normal (-2/3,-2/3,-1/3). -/
theorem C4_bvh_matches_linear_witness :
    sceneRaycast [Prim.sphere ⟨2, 2, 1⟩ 1 5] ⟨0, 0, 0⟩ ⟨2/3, 2/3, 1/3⟩
        = some ⟨2, ⟨-(2/3), -(2/3), -(1/3)⟩, ⟨-(2/3), -(2/3), -(1/3)⟩, 5⟩ ∧
    bvhRaycast [Prim.sphere ⟨2, 2, 1⟩ 1 5] ⟨0, 0, 0⟩ ⟨2/3, 2/3, 1/3⟩
        = some ⟨2, ⟨-(2/3), -(2/3), -(1/3)⟩, ⟨-(2/3), -(2/3), -(1/3)⟩, 5⟩ := by
  have hps : (Prim.sphere ⟨2, 2, 1⟩ 1 5).raycast ⟨0, 0, 0⟩ ⟨2/3, 2/3, 1/3⟩
      = some ⟨2, ⟨-(2/3), -(2/3), -(1/3)⟩, ⟨-(2/3), -(2/3), -(1/3)⟩, 5⟩ := by
    have hs : Real.sqrt (2 * (Vec3.dot (Vec3.sub ⟨0, 0, 0⟩ ⟨2, 2, 1⟩)
        ⟨2/3, 2/3, 1/3⟩) *
        (2 * (Vec3.dot (Vec3.sub ⟨0, 0, 0⟩ ⟨2, 2, 1⟩) ⟨2/3, 2/3, 1/3⟩)) -
        4 * 1 * (Vec3.dot (Vec3.sub ⟨0, 0, 0⟩ ⟨2, 2, 1⟩)
          (Vec3.sub ⟨0, 0, 0⟩ ⟨2, 2, 1⟩) - 1 * 1)) = 2 := by
      rw [show (2 * (Vec3.dot (Vec3.sub ⟨0, 0, 0⟩ ⟨2, 2, 1⟩)
        ⟨2/3, 2/3, 1/3⟩) *
        (2 * (Vec3.dot (Vec3.sub ⟨0, 0, 0⟩ ⟨2, 2, 1⟩) ⟨2/3, 2/3, 1/3⟩)) -
        4 * 1 * (Vec3.dot (Vec3.sub ⟨0, 0, 0⟩ ⟨2, 2, 1⟩)
          (Vec3.sub ⟨0, 0, 0⟩ ⟨2, 2, 1⟩) - 1 * 1) : ℝ) = 2 ^ 2 by
        simp [Vec3.dot, Vec3.sub]
        norm_num]
      exact Real.sqrt_sq (by norm_num)
    rw [Prim.raycast, sphereRaycast]
    simp only [hs]
    norm_num [Vec3.sub, Vec3.dot, Vec3.add, Vec3.smul, Vec3.normalize,
      Vec3.divs, Vec3.length, Real.sqrt_one]
  refine ((C4_bvh_matches_linear [Prim.sphere ⟨2, 2, 1⟩ 1 5] ⟨0, 0, 0⟩
      ⟨2/3, 2/3, 1/3⟩ (by simp) (by norm_num) (by norm_num) (by norm_num)
      (by norm_num [Vec3.dot])).2 _ (List.mem_cons_self _ _)
      (by simp [Prim.wf]) _ hps ?_)
  intro p hp h hh
  rw [List.mem_singleton] at hp
  subst hp
  rw [hps] at hh
  exact Or.inl (Option.some.inj hh).symm

theorem C4build :
    Bvh.build [Prim.sphere ⟨0, 0, 0.2⟩ 0.8 1, Prim.sphere ⟨0, 0, 0.4⟩ 0.6 2]
      = .node ⟨⟨-0.8, -0.8, -0.6⟩, ⟨0.8, 0.8, 1.0⟩⟩
          (.leaf ⟨⟨-0.8, -0.8, -0.6⟩, ⟨0.8, 0.8, 1.0⟩⟩ 0)
          (.leaf ⟨⟨-0.6, -0.6, -0.2⟩, ⟨0.6, 0.6, 1.0⟩⟩ 1) := by
  rw [Bvh.build]
  norm_num [List.enum, List.enumFrom, build_bvh_node, Prim.bounds,
    Bounds.union, Bounds.point, Bounds.centroid, Vec3.subs, Vec3.adds,
    Vec3.cmin, Vec3.cmax, Vec3.add, Vec3.divs, Vec3.sub, Vec3.comp,
    sortByKey, insertByKey, min_def, max_def]

theorem C4box1 :
    Bounds.ray_intersect ⟨⟨-0.8, -0.8, -0.6⟩, ⟨0.8, 0.8, 1.0⟩⟩ ⟨0, 0, 0⟩
      ⟨0, 0, 1⟩ none = some (0, 0) := by
  rw [Bounds.ray_intersect]
  norm_num [Vec3.sub, Vec3.divv, Vec3.cmin, Vec3.cmax, Vec3.min_element,
    Vec3.max_element, min_def, max_def]

theorem C4box2 :
    Bounds.ray_intersect ⟨⟨-0.6, -0.6, -0.2⟩, ⟨0.6, 0.6, 1.0⟩⟩ ⟨0, 0, 0⟩
      ⟨0, 0, 1⟩ none = some (0, 0) := by
  rw [Bounds.ray_intersect]
  norm_num [Vec3.sub, Vec3.divv, Vec3.cmin, Vec3.cmax, Vec3.min_element,
    Vec3.max_element, min_def, max_def]

theorem C4box3 :
    Bounds.ray_intersect ⟨⟨-0.8, -0.8, -0.6⟩, ⟨0.8, 0.8, 1.0⟩⟩ ⟨0, 0, 0⟩
      ⟨0, 0, 1⟩ (some 1) = some (0, 0) := by
  rw [Bounds.ray_intersect]
  norm_num [Vec3.sub, Vec3.divv, Vec3.cmin, Vec3.cmax, Vec3.min_element,
    Vec3.max_element, min_def, max_def]

/-- C4 counterexample: on the scene of two spheres centred at (0,0,0.2)
(radius 0.8, material 1) and (0,0,0.4) (radius 0.6, material 2), both hit
by the ray from the origin along +z at t = 1 with normal (0,0,1), the
linear scan keeps the first sphere's hit while the BVH traversal (which
tests the right child first) keeps the second sphere's hit: the two
raycasts return different hits, refuting the claim as stated. -/
theorem C4_counterexample :
    sceneRaycast [Prim.sphere ⟨0, 0, 0.2⟩ 0.8 1, Prim.sphere ⟨0, 0, 0.4⟩ 0.6 2]
        ⟨0, 0, 0⟩ ⟨0, 0, 1⟩ = some ⟨1, ⟨0, 0, 1⟩, ⟨0, 0, 1⟩, 1⟩ ∧
    bvhRaycast [Prim.sphere ⟨0, 0, 0.2⟩ 0.8 1, Prim.sphere ⟨0, 0, 0.4⟩ 0.6 2]
        ⟨0, 0, 0⟩ ⟨0, 0, 1⟩ = some ⟨1, ⟨0, 0, 1⟩, ⟨0, 0, 1⟩, 2⟩ ∧
    (⟨1, ⟨0, 0, 1⟩, ⟨0, 0, 1⟩, 1⟩ : RayHit) ≠ ⟨1, ⟨0, 0, 1⟩, ⟨0, 0, 1⟩, 2⟩ := by
  have e1 : acceptHit ⟨1, ⟨0, 0, 1⟩, ⟨0, 0, 1⟩, 1⟩ none ⟨0, 0, 1⟩ := by
    simp [acceptHit]
  have e2 : ¬acceptHit ⟨1, ⟨0, 0, 1⟩, ⟨0, 0, 1⟩, 2⟩
      (some ⟨1, ⟨0, 0, 1⟩, ⟨0, 0, 1⟩, 1⟩) ⟨0, 0, 1⟩ := by
    simp only [acceptHit, Vec3.dot, not_lt]
    norm_num
  have e3 : acceptHit ⟨1, ⟨0, 0, 1⟩, ⟨0, 0, 1⟩, 2⟩ none ⟨0, 0, 1⟩ := by
    simp [acceptHit]
  have e4 : ¬acceptHit ⟨1, ⟨0, 0, 1⟩, ⟨0, 0, 1⟩, 1⟩
      (some ⟨1, ⟨0, 0, 1⟩, ⟨0, 0, 1⟩, 2⟩) ⟨0, 0, 1⟩ := by
    simp only [acceptHit, Vec3.dot, not_lt]
    norm_num
  refine ⟨?_, ?_, ?_⟩
  · rw [sceneRaycast]
    simp only [linearRaycastGo, C4hitA, C4hitB, e1, e2, e3, e4, if_true,
      if_false, ite_true, ite_false]
  · rw [bvhRaycast, C4build]
    simp only [bvhGo, BvhTree.bounds, tHitOf, Option.map, C4box1, C4box2,
      C4box3, C4hitA, C4hitB, List.getD, List.get?, Option.getD, e1, e2, e3,
      e4, if_true, if_false, ite_true, ite_false, RayHit.t]
  · simp

/-- C1: the claim says the medium coefficients are read at the collision
point `p = pos + t·dir`; src/path_trace.rs line 55 reads them at the segment
origin `pos` instead.  At `pos = 0`, `dir = (0,0,1)`, `t = 1/2` in the test
medium with constant absorption 1, the loop uses absorption probability 1
(the value at `pos`), while the value at the collision point `p` is 1/2. -/
theorem C1_coefficients_read_at_segment_origin :
    deltaTrackingCollision C1med Vec3.zero ⟨0, 0, 1⟩ (Vec4.splat 500)
        (C1med.majorant (Vec4.splat 500)) (1 / 2)
      = ⟨⟨0, 0, 1 / 2⟩, Vec4.one, Vec4.zero, Vec4.zero⟩ ∧
    (C1med.absorption ⟨0, 0, 1 / 2⟩ ⟨0, 0, 1⟩ (Vec4.splat 500)).divs
        (C1med.majorant (Vec4.splat 500)) = Vec4.splat (1 / 2) ∧
    Vec4.one ≠ Vec4.splat (1 / 2) := by
  have hz : Vec3.length Vec3.zero = 0 := by
    simp [Vec3.length, Vec3.dot, Vec3.zero, Real.sqrt_zero]
  have hp : Vec3.length ⟨0, 0, 1 / 2⟩ = 1 / 2 := by
    apply sqrt_eval (by norm_num)
    simp [Vec3.dot]; norm_num
  have hmaj : C1med.majorant (Vec4.splat 500) = 1 := by
    simp [C1med, TestMedium, Spectrum.sample_multi, ConstantSpectrum, Vec4.map,
      Vec4.splat, Vec4.add, Vec4.max_element]
  refine ⟨?_, ?_, ?_⟩
  · simp only [deltaTrackingCollision, hmaj, C1med, TestMedium, Medium.properties,
      Spectrum.sample_multi, ConstantSpectrum, Vec4.map, Vec4.splat, hz]
    simp [Vec3.add, Vec3.smul, Vec3.zero, Vec4.smul, Vec4.divs, Vec4.rsub,
      Vec4.sub, Vec4.one, Vec4.zero, Vec4.add, Vec4.max_element]
  · simp only [hmaj, C1med, TestMedium, Spectrum.sample_multi, ConstantSpectrum,
      Vec4.map, Vec4.splat, hp]
    simp [Vec4.smul, Vec4.divs, Vec4.splat, Vec4.add, Vec4.max_element]
    norm_num
  · simp [Vec4.one, Vec4.splat, Vec4.ext_iff4]

/-- C2 counterexample: with throughput `(0.4, 0.4, 0.4, 0.4)` (maximum
component below 0.5) and 0 bounces, the claim says the Russian-roulette
branch is entered (so a stop draw terminates the walk); the code of
src/path_trace.rs lines 183-194 tests the component sum (1.6) and does not
enter the branch — the state passes through unchanged even on a stop draw. -/
theorem C2_counterexample :
    Vec4.max_element ⟨0.4, 0.4, 0.4, 0.4⟩ < 0.5 ∧
    russianRoulette ⟨0.4, 0.4, 0.4, 0.4⟩ 0 true
      = some (⟨0.4, 0.4, 0.4, 0.4⟩, 1) := by
  constructor
  · simp [Vec4.max_element]; norm_num
  · rw [russianRoulette, if_neg]
    simp [Vec4.element_sum]
    norm_num

/-- C2 (amended): the Russian-roulette branch of src/path_trace.rs lines
183-194 is entered exactly when the SUM of the throughput components is
below 0.5 or the bounce counter exceeds 20; on entry the bounce counter is
reset when it exceeded 20, a stop draw terminates the walk, and otherwise
the throughput is doubled. -/
theorem C2_rr_condition_is_component_sum (tp : Vec4) (b : ℕ) :
    (∀ stop, ¬(tp.element_sum < 0.5 ∨ b > 20) →
        russianRoulette tp b stop = some (tp, b + 1)) ∧
    (tp.element_sum < 0.5 ∨ b > 20 →
        russianRoulette tp b true = none ∧
        russianRoulette tp b false
          = some (Vec4.smul 2 tp, (if b > 20 then 0 else b) + 1)) := by
  constructor
  · intro stop h
    rw [russianRoulette, if_neg h]
  · intro h
    constructor
    · rw [russianRoulette, if_pos h]; simp
    · rw [russianRoulette, if_pos h]; simp

theorem C2_rr_condition_is_component_sum_witness :
    russianRoulette ⟨0.1, 0, 0, 0⟩ 0 true = none ∧
    russianRoulette ⟨1, 1, 1, 1⟩ 0 true = some (⟨1, 1, 1, 1⟩, 1) := by
  constructor
  · exact ((C2_rr_condition_is_component_sum ⟨0.1, 0, 0, 0⟩ 0).2
      (Or.inl (by simp [Vec4.element_sum]; norm_num))).1
  · exact (C2_rr_condition_is_component_sum ⟨1, 1, 1, 1⟩ 0).1 true
      (by simp [Vec4.element_sum]; norm_num)

/-- C3: the majorant contract fails for `AtmosphereMie`.  At a position at
sea level (altitude 0), absorption + scattering evaluates to
`1.1 * sea_level_density` in every component, while `majorant` returns
`sea_level_density`: with sea-level density 1 the attenuation component 1.1
exceeds the majorant 1. -/
theorem C3_mie_attenuation_exceeds_majorant :
    ((⟨1, 0, 0⟩ : Vec3).sub C3mie.origin).length - C3mie.sea_level = 0 ∧
    ((C3mie.toMedium.absorption ⟨1, 0, 0⟩ ⟨0, 0, 1⟩ (Vec4.splat 500)).add
        (C3mie.toMedium.scattering ⟨1, 0, 0⟩ ⟨0, 0, 1⟩ (Vec4.splat 500))).x
      > C3mie.toMedium.majorant (Vec4.splat 500) := by
  have hlen : ((⟨1, 0, 0⟩ : Vec3).sub C3mie.origin).length = 1 := by
    apply sqrt_eval (by norm_num)
    simp [C3mie, Vec3.sub, Vec3.zero, Vec3.dot]
  have halt : ((⟨1, 0, 0⟩ : Vec3).sub C3mie.origin).length - C3mie.sea_level = 0 := by
    rw [hlen]; simp [C3mie]
  refine ⟨halt, ?_⟩
  simp only [AtmosphereMie.toMedium, AtmosphereMie.scattering, halt]
  simp [C3mie, Vec4.smul, Vec4.add, Vec4.splat, Real.exp_zero]
  norm_num

/-- C9: on finding the current medium participating with
`secondary_terminated` unset, the walk immediately zeroes throughput
components 1..3 and scales component 0 by 4, setting the flag — regardless
of any physical event; and the multiplicative throughput updates of the
volume loop preserve the all-but-hero-zero state, so inside a participating
medium at most the hero component is ever nonzero. -/
theorem C9_participating_medium_hero_only (tp v : Vec4) (s : ℝ) :
    participatingEntry tp false = (⟨4 * tp.x, 0, 0, 0⟩, true) ∧
    heroOnly (participatingEntry tp false).1 ∧
    (heroOnly tp → heroOnly (tp.mul v)) ∧
    (heroOnly tp → heroOnly (tp.divs s)) ∧
    (heroOnly tp → heroOnly (Vec4.smul s tp)) ∧
    (participatingEntry tp true = (tp, true)) := by
  refine ⟨by simp [participatingEntry], by simp [participatingEntry, heroOnly],
    ?_, ?_, ?_, by simp [participatingEntry]⟩
  · rintro ⟨h1, h2, h3⟩
    exact ⟨by simp [Vec4.mul, h1], by simp [Vec4.mul, h2], by simp [Vec4.mul, h3]⟩
  · rintro ⟨h1, h2, h3⟩
    exact ⟨by simp [Vec4.divs, h1], by simp [Vec4.divs, h2], by simp [Vec4.divs, h3]⟩
  · rintro ⟨h1, h2, h3⟩
    exact ⟨by simp [Vec4.smul, h1], by simp [Vec4.smul, h2], by simp [Vec4.smul, h3]⟩

theorem C9_participating_medium_hero_only_witness :
    participatingEntry ⟨1, 1, 1, 1⟩ false = (⟨4 * 1, 0, 0, 0⟩, true) ∧
    heroOnly (Vec4.mul ⟨4, 0, 0, 0⟩ ⟨2, 3, 5, 7⟩) := by
  constructor
  · exact (C9_participating_medium_hero_only ⟨1, 1, 1, 1⟩ ⟨2, 3, 5, 7⟩ 2).1
  · exact (C9_participating_medium_hero_only ⟨4, 0, 0, 0⟩ ⟨2, 3, 5, 7⟩ 2).2.2.1
      ⟨rfl, rfl, rfl⟩

/-- C10: the iteration prologue of `path_trace` and the loop head of
`transmittance` panic exactly when the current medium is participating and
the raycast misses; consequently a normal return inside a participating
medium always has a surface hit bounding the segment. -/
theorem C10_participating_miss_panics
    (raycast1 : Vec3 → Vec3 → Option RayHit)
    (raycast2 : Vec3 → Vec3 → ℝ → Option RayHit)
    (pos dir : Vec3) (d : ℝ) (m : Medium) :
    (pathTracePrologue raycast1 pos dir m = .error () ↔
        m.participating = true ∧ raycast1 pos dir = none) ∧
    (transmittanceCheck raycast2 pos dir d m = .error () ↔
        d > 0 ∧ m.participating = true ∧ raycast2 pos dir d = none) ∧
    (∀ r, pathTracePrologue raycast1 pos dir m = .ok r →
        m.participating = true → ∃ h, raycast1 pos dir = some h) := by
  refine ⟨?_, ?_, ?_⟩
  · unfold pathTracePrologue
    cases hr : raycast1 pos dir with
    | none => cases hm : m.participating <;> simp [hm]
    | some h => simp
  · unfold transmittanceCheck
    by_cases hd : d > 0
    · rw [if_pos hd]
      cases hr : raycast2 pos dir d with
      | none => cases hm : m.participating <;> simp [hm, hd]
      | some h => simp [hd]
    · rw [if_neg hd]; simp [hd]
  · intro r hok hm
    unfold pathTracePrologue at hok
    cases hr : raycast1 pos dir with
    | none => rw [hr, hm] at hok; simp at hok
    | some h => exact ⟨h, rfl⟩

theorem C10_participating_miss_panics_witness :
    pathTracePrologue (fun _ _ => none) Vec3.zero Vec3.zero C1med = .error () ∧
    transmittanceCheck (fun _ _ _ => none) Vec3.zero Vec3.zero 1 C1med
      = .error () := by
  constructor
  · exact ((C10_participating_miss_panics (fun _ _ => none) (fun _ _ _ => none)
      Vec3.zero Vec3.zero 1 C1med).1).2 ⟨rfl, rfl⟩
  · exact ((C10_participating_miss_panics (fun _ _ => none) (fun _ _ _ => none)
      Vec3.zero Vec3.zero 1 C1med).2.1).2 ⟨by norm_num, rfl, rfl⟩

end

end Pbr
